import Mathlib

/-!
The program slacky: a Slack export flattener

A shallow embedding of `main.go`: the roster table built in `main`, the
per-record body of the loop in `readChannel` (exclusion filter, mention
rewriting, timestamp conversion, subteam and channel clean-up), the channel
reader, the transcript part of `writeChannel`, and the two phases of `main`.
The timestamp reader is a parameter of the record loop; `float64Seconds` says
what `strconv.ParseFloat` and `int64` compute on a plain decimal numeral.

Go strings hold valid UTF-8 after `json.Unmarshal`; they are embedded as the
list of their runes.  All the delimiters the program looks for are ASCII, so
matching on runes and matching on bytes agree.
-/

namespace Slacky

/-- A Go `string`, as the sequence of its runes. -/
abbrev Str := List Char

/-! ## The part of `regexp` the program uses

The three patterns of `readChannel` are concatenations of literal runes and
greedy stars over negated classes, with one capture group.  `matchHere` is the
leftmost-first (backtracking, greedy) matcher for such patterns. -/

/-- One item of a pattern. -/
inductive Atom where
  /-- a literal rune -/
  | lit (c : Char)
  /-- the greedy star of a negated class: `[^cs]*`; `.*` is `[^\n]*` -/
  | starNot (cs : List Char)
  /-- the opening bracket of the capture group -/
  | openGroup
  /-- the closing bracket of the capture group -/
  | closeGroup

/-- The greedy star loop: take one more rune of the class when possible, and
fall back to the continuation `k` when the longer attempt fails. -/
def starLoop (cs : List Char) (k : Str → Nat → Nat × Nat → Option (Nat × Nat × Nat)) :
    Str → Nat → Nat × Nat → Option (Nat × Nat × Nat)
  | [], pos, cap => k [] pos cap
  | x :: xs, pos, cap =>
    if x ∈ cs then k (x :: xs) pos cap
    else (starLoop cs k xs (pos + 1) cap).orElse (fun _ => k (x :: xs) pos cap)

/-- Match a pattern at the head of the input.  `pos` counts the runes consumed
so far and `cap` holds the bounds of the capture group; the answer is the end
of the match with the bounds of the group. -/
def matchHere : List Atom → Str → Nat → Nat × Nat → Option (Nat × Nat × Nat)
  | [], _, pos, cap => some (pos, cap)
  | .lit c :: rest, s, pos, cap =>
    match s with
    | [] => none
    | x :: xs => if x = c then matchHere rest xs (pos + 1) cap else none
  | .starNot cs :: rest, s, pos, cap => starLoop cs (matchHere rest) s pos cap
  | .openGroup :: rest, s, pos, cap => matchHere rest s pos (pos, cap.2)
  | .closeGroup :: rest, s, pos, cap => matchHere rest s pos (cap.1, pos)

/-- One match as `FindAllStringSubmatch` reports it: `whole` is `match[0]`,
`group` is `match[1]`. -/
structure Submatch where
  whole : Str
  group : Str
deriving DecidableEq

/-- The leftmost match in `s`, with the text that follows it. -/
def findFirst (re : List Atom) : Str → Option (Submatch × Str)
  | [] =>
    (matchHere re [] 0 (0, 0)).map fun r =>
      (⟨List.take r.1 [], List.take (r.2.2 - r.2.1) (List.drop r.2.1 [])⟩, List.drop r.1 [])
  | x :: xs =>
    match matchHere re (x :: xs) 0 (0, 0) with
    | some r =>
      some (⟨List.take r.1 (x :: xs), List.take (r.2.2 - r.2.1) (List.drop r.2.1 (x :: xs))⟩,
        List.drop r.1 (x :: xs))
    | none => findFirst re xs

/-- The call `re.FindAllStringSubmatch(s, n)`: the successive non-overlapping matches of
`re` in `s`, at most `n` of them.  Every pattern of the program starts with a
literal `<`, so a match is never empty and the search resumes at its end. -/
def FindAllStringSubmatch (re : List Atom) : Nat → Str → List Submatch
  | 0, _ => []
  | n + 1, s =>
    match findFirst re s with
    | none => []
    | some (m, rest) => m :: FindAllStringSubmatch re n rest

/-! ## The part of `strings` the program uses -/

/-- Split `s` around the first instance of `old` (as `strings.Cut`). -/
def cut (old : Str) : Str → Option (Str × Str)
  | [] => if old = [] then some ([], []) else none
  | x :: xs =>
    if old.isPrefixOf (x :: xs) then some ([], List.drop old.length (x :: xs))
    else (cut old xs).map fun p => (x :: p.1, p.2)

/-- The call `strings.Replace(s, old, new, n)` for `n ≥ 0` and a non-empty `old`: the
first `n` non-overlapping instances of `old`, from the left, become `new`. -/
def Replace (s old new : Str) : Nat → Str
  | 0 => s
  | n + 1 =>
    match cut old s with
    | none => s
    | some (before, after) => before ++ new ++ Replace after old new n

/-- The call `strings.ReplaceAll(s, old, new)` for a non-empty `old`.  Go replaces
`Count(s, old)` instances; that count is at most the length of `s`, and a
round that finds no instance changes nothing. -/
def ReplaceAll (s old new : Str) : Str :=
  Replace s old new s.length

/-! ## The patterns of `readChannel` -/

/-- The pattern `<(@[^<>@]*)>`. -/
def mentionRe : List Atom :=
  [.lit '<', .openGroup, .lit '@', .starNot ['<', '>', '@'], .closeGroup, .lit '>']

/-- The pattern `<!subteam[^@]*([^>]*)>`. -/
def subteamRe : List Atom :=
  [.lit '<', .lit '!', .lit 's', .lit 'u', .lit 'b', .lit 't', .lit 'e', .lit 'a', .lit 'm',
   .starNot ['@'], .openGroup, .starNot ['>'], .closeGroup, .lit '>']

/-- The pattern `<#.*\|(.*)>`; the dot excludes the newline. -/
def channelRe : List Atom :=
  [.lit '<', .lit '#', .starNot ['\n'], .lit '|', .openGroup, .starNot ['\n'], .closeGroup,
   .lit '>']

/-! ## Data model (the types at the end of `main.go`) -/

/-- The Go `type User`. -/
structure User where
  Id : Str
  Name : Str
deriving DecidableEq

/-- The Go `type Message`; `Time` is the instant `time.Unix(sec, 0)`, kept as `sec`. -/
structure Message where
  User : Str
  Text : Str
  Time : Int
deriving DecidableEq

/-- The `Profile` field of `InputUser`. -/
structure Profile where
  DisplayName : Str
  RealName : Str
deriving DecidableEq

/-- The Go `type InputUser`. -/
structure InputUser where
  Id : Str
  Name : Str
  Profile : Profile
deriving DecidableEq

/-- The Go `type InputMessage`; the field `Type` is written `Type_`. -/
structure InputMessage where
  UserId : Str
  Timestamp : Str
  Type_ : Str
  SubType : Str
  Text : Str
  ParentUserId : Str
deriving DecidableEq

/-- A Go `map[string]User`. -/
abbrev UsersMap := Str → Option User

/-- The empty map `make(map[string]User)`. -/
def emptyUsers : UsersMap := fun _ => none

/-- The assignment `m[k] = v`. -/
def UsersMap.set (m : UsersMap) (k : Str) (v : User) : UsersMap :=
  fun x => if x = k then some v else m x

/-- The read `m[k]`: the zero `User` when the key is absent. -/
def UsersMap.index (m : UsersMap) (k : Str) : User :=
  (m k).getD ⟨[], []⟩

/-! ## `main`, lines 39-49: the roster table -/

/-- The loop that fills `usersMap`. -/
def buildUsers (users : List InputUser) : UsersMap :=
  users.foldl
    (fun usersMap user =>
      let name := if user.Profile.DisplayName = [] then user.Profile.RealName
        else user.Profile.DisplayName
      usersMap.set user.Id ⟨user.Id, name⟩)
    emptyUsers

/-! ## `readChannel` -/

/-- The errors `readChannel` returns. -/
inductive ReadError where
  /-- The error "could not open channel" -/
  | openChannel
  /-- The error "could not open channel file" -/
  | openFile
  /-- The error "could not unmarshal messages" -/
  | unmarshal
  /-- The error "invalid timestamp" -/
  | invalidTimestamp
deriving DecidableEq

/-- What one round of the record loop does. -/
inductive Step where
  /-- The `continue`: nothing is appended, the loop goes on -/
  | skip
  /-- The exit `return nil, err` -/
  | fail (err : ReadError)
  /-- The append `messages = append(messages, m)`, the loop goes on -/
  | emit (m : Message)
deriving DecidableEq

/-- Lines 157-167: every mention found in the original text is replaced, in
the order found, in the text rewritten so far. -/
def rewriteMentions (users : UsersMap) (inputText : Str) : Str :=
  (FindAllStringSubmatch mentionRe 999 inputText).foldl
    (fun text m =>
      let id := m.group.drop 1
      let name := (users.index id).Name
      ReplaceAll text m.whole ('@' :: name))
    inputText

/-- Lines 174-179: "remove subteam bloat". -/
def stripSubteams (text : Str) : Str :=
  (FindAllStringSubmatch subteamRe 999 text).foldl
    (fun text m => Replace text m.whole m.group 1) text

/-- Lines 181-186: "remove channel bloat". -/
def rewriteChannels (text : Str) : Str :=
  (FindAllStringSubmatch channelRe 999 text).foldl
    (fun text m => Replace text m.whole ('#' :: m.group) 1) text

/-- The text of the appended message: the three passes in the order of the
source. -/
def normalizeText (users : UsersMap) (inputText : Str) : Str :=
  rewriteChannels (stripSubteams (rewriteMentions users inputText))

/-- The body of the record loop, lines 148-192.  `parseTs` stands for
`strconv.ParseFloat(·, 64)` followed by the conversion `int64(·)`: it is `none`
when `ParseFloat` reports an error. -/
def processRecord (parseTs : Str → Option Int) (users : UsersMap)
    (inputMessage : InputMessage) : Step :=
  let notMessage := inputMessage.Type_ ≠ "message".toList
  let isChannelJoin := inputMessage.SubType = "channel_join".toList
  let isReply := inputMessage.ParentUserId ≠ []
  if notMessage ∨ isChannelJoin ∨ isReply then .skip
  else
    let user := (users.index inputMessage.UserId).Name
    let text := rewriteMentions users inputMessage.Text
    match parseTs inputMessage.Timestamp with
    | none => .fail .invalidTimestamp
    | some ts =>
      let text := stripSubteams text
      let text := rewriteChannels text
      .emit ⟨user, text, ts⟩

/-- What reading and decoding one file gives. -/
inductive FileRead (α : Type) where
  /-- The call to `os.ReadFile` fails -/
  | unreadable
  /-- The call to `json.Unmarshal` fails -/
  | malformed
  /-- the decoded content -/
  | decoded (a : α)
deriving DecidableEq

/-- The loop over the records of one daily file. -/
def readRecords (parseTs : Str → Option Int) (users : UsersMap) :
    List InputMessage → List Message → Except ReadError (List Message)
  | [], messages => .ok messages
  | inputMessage :: rest, messages =>
    match processRecord parseTs users inputMessage with
    | .skip => readRecords parseTs users rest messages
    | .fail err => .error err
    | .emit m => readRecords parseTs users rest (messages ++ [m])

/-- The loop over the daily files of a channel. -/
def readDays (parseTs : Str → Option Int) (users : UsersMap) :
    List (FileRead (List InputMessage)) → List Message → Except ReadError (List Message)
  | [], messages => .ok messages
  | day :: rest, messages =>
    match day with
    | .unreadable => .error .openFile
    | .malformed => .error .unmarshal
    | .decoded inputMessages =>
      match readRecords parseTs users inputMessages messages with
      | .error err => .error err
      | .ok messages => readDays parseTs users rest messages

/-- The function `readChannel`; `days` is what `os.ReadDir(path)` gives, `none` when it
fails, the files in listing order. -/
def readChannel (parseTs : Str → Option Int) (users : UsersMap)
    (days : Option (List (FileRead (List InputMessage)))) : Except ReadError (List Message) :=
  match days with
  | none => .error .openChannel
  | some days => readDays parseTs users days []

/-- A timestamp reader for the examples: the numerals `D+` and `D+.D*`, read
as their integer part. -/
def decimalSeconds (s : Str) : Option Int :=
  let whole := s.takeWhile Char.isDigit
  let rest := s.dropWhile Char.isDigit
  if whole = [] then none
  else if rest = [] ∨ (rest.head? = some '.' ∧ (rest.drop 1).all Char.isDigit) then
    some (whole.foldl (fun n c => 10 * n + (c.toNat - '0'.toNat)) 0 : Nat)
  else none

/-! ## Lines 168-172: `strconv.ParseFloat(·, 64)` and `int64(·)` on plain numerals

`ParseFloat` returns the float64 nearest to the decimal value (round to
nearest, ties to even) and reports a range error when that is out of range;
`int64` discards the fraction.  Both are modelled exactly, on the rational
`N / D`, with integer arithmetic. -/

/-- The value of a string of decimal digits. -/
def digitsValue (ds : Str) : Nat :=
  ds.foldl (fun n c => 10 * n + (c.toNat - '0'.toNat)) 0

/-- The numerals `D+` and `D+.D*`, split into the digits before the point and
the digits after it; `none` for every other string. -/
def plainNumeral (s : Str) : Option (Str × Str) :=
  let whole := s.takeWhile Char.isDigit
  let rest := s.dropWhile Char.isDigit
  if whole = [] then none
  else if rest = [] then some (whole, [])
  else if rest.head? = some '.' ∧ (rest.drop 1).all Char.isDigit then some (whole, rest.drop 1)
  else none

/-- The number of binary digits of `n`, with `fuel` rounds. -/
def bitLengthAux : Nat → Nat → Nat
  | 0, _ => 0
  | fuel + 1, n => if n = 0 then 0 else bitLengthAux fuel (n / 2) + 1

/-- The number of binary digits of `n`: 0 for 0, and `k + 1` when
`2 ^ k ≤ n < 2 ^ (k + 1)`. -/
def bitLength (n : Nat) : Nat :=
  bitLengthAux n n

/-- The integer `b` with `2 ^ b ≤ N / D < 2 ^ (b + 1)`, for `N` and `D`
positive. -/
def floorLog2 (N D : Nat) : Int :=
  if D ≤ N then (bitLength (N / D) : Int) - 1 else -(bitLength ((D - 1) / N) : Int)

/-- The integer nearest to `num / den`, ties to the even one. -/
def roundHalfEven (num den : Nat) : Nat :=
  let m := num / den
  let r := num % den
  if 2 * r < den then m
  else if den < 2 * r then m + 1
  else if m % 2 = 0 then m
  else m + 1

/-- The bound `2 ^ 1024`, which no float64 reaches. -/
def float64Bound : Nat :=
  (2 ^ 256) ^ 4

/-- The seconds `int64(f)` for `f` the float64 that `ParseFloat` returns on a
numeral of value `N / D`: `f = m * 2 ^ e` with `e` the exponent of the last
mantissa bit (at least -1074) and `m` the rounded mantissa; `none` is the range
error.  From `2 ^ 63` on Go leaves the conversion to the implementation:
`big` stands for what it gives there. -/
def float64Seconds (big : Nat → Int) (N D : Nat) : Option Int :=
  if N = 0 then some 0
  else
    let e : Int := max (floorLog2 N D - 52) (-1074)
    if 0 ≤ e then
      let m := roundHalfEven N (D * 2 ^ e.toNat)
      let v := m * 2 ^ e.toNat
      if float64Bound ≤ v then none
      else if v < 2 ^ 63 then some (v : Int)
      else some (big v)
    else
      let m := roundHalfEven (N * 2 ^ (-e).toNat) D
      some ((m / 2 ^ (-e).toNat : Nat) : Int)

/-- The timestamp reader `parseTs` does on plain numerals what `ParseFloat`
and `int64` do. -/
def readsNumerals (big : Nat → Int) (parseTs : Str → Option Int) : Prop :=
  ∀ s whole frac, plainNumeral s = some (whole, frac) →
    parseTs s = float64Seconds big (digitsValue (whole ++ frac)) (10 ^ frac.length)

/-- A timestamp reader for the examples: `ParseFloat` and `int64` on the plain
numerals, every other string rejected. -/
def numeralSeconds (big : Nat → Int) (s : Str) : Option Int :=
  match plainNumeral s with
  | none => none
  | some (whole, frac) => float64Seconds big (digitsValue (whole ++ frac)) (10 ^ frac.length)

/-! ## `writeChannel`, lines 109-123: the transcript -/

/-- The civil date `(year, month, day)` of the day `z` days after 1970-01-01
in the proleptic Gregorian calendar, as `time.Time.Date` computes it. -/
def civil (z : Int) : Int × Nat × Nat :=
  let z := z + 719468
  let era := z / 146097
  let doe := z - era * 146097
  let yoe := (doe - doe / 1460 + doe / 36524 - doe / 146096) / 365
  let doy := doe - (365 * yoe + yoe / 4 - yoe / 100)
  let mp := (5 * doy + 2) / 153
  let d := doy - (153 * mp + 2) / 5 + 1
  let m := if mp < 10 then mp + 3 else mp - 9
  (if m ≤ 2 then yoe + era * 400 + 1 else yoe + era * 400, m.toNat, d.toNat)

/-- The month `t.Month()` in a zone that is `zone t` seconds east of UTC at `t`. -/
def Month (zone : Int → Int) (t : Int) : Nat :=
  (civil ((t + zone t) / 86400)).2.1

/-- The day of the month `t.Day()`. -/
def Day (zone : Int → Int) (t : Int) : Nat :=
  (civil ((t + zone t) / 86400)).2.2

/-- The hour and the minute of `t.Clock()`. -/
def Clock (zone : Int → Int) (t : Int) : Nat × Nat :=
  let s := (t + zone t) % 86400
  ((s / 3600).toNat, (s % 3600 / 60).toNat)

/-- The verb `%d` on a non-negative integer. -/
def fmtD (n : Nat) : Str :=
  Nat.toDigits 10 n

/-- The verb `%02d` on a non-negative integer: zeros on the left up to width 2. -/
def fmt02d (n : Nat) : Str :=
  List.replicate (2 - (Nat.toDigits 10 n).length) '0' ++ Nat.toDigits 10 n

/-- The line `fmt.Sprintf("%02d/%d %02d:%02d %s: %s\n", month, day, h, m, msg.User, msg.Text)`. -/
def formatted (zone : Int → Int) (msg : Message) : Str :=
  let month := Month zone msg.Time
  let day := Day zone msg.Time
  let hm := Clock zone msg.Time
  fmt02d month ++ '/' :: fmtD day ++ ' ' :: fmt02d hm.1 ++ ':' :: fmt02d hm.2 ++
    ' ' :: msg.User ++ ':' :: ' ' :: msg.Text ++ ['\n']

/-- What the loop of lines 115-122 hands to the writer of the `.txt` file. -/
def transcript (zone : Int → Int) (messages : List Message) : Str :=
  messages.foldl (fun buf msg => (buf ++ formatted zone msg) ++ ['\n']) []

/-- A file `writeChannel` creates, with what is written to it.  The JSON
document is kept as the list it encodes. -/
inductive OutFile where
  /-- The file `output/debug/<name>.json` -/
  | debug (name : Str) (messages : List Message)
  /-- The file `output/formatted/<name>.txt` -/
  | formatted (name : Str) (content : Str)
deriving DecidableEq

/-- The function `writeChannel` in a writable working directory: the files it creates. -/
def writeChannel (zone : Int → Int) (path : Str) (messages : List Message) : List OutFile :=
  [.debug path messages, .formatted path (transcript zone messages)]

/-! ## `main` -/

/-- An entry of the archive directory; `days` is the listing of the channel
directory, `none` when it cannot be read. -/
structure DirEntry where
  Name : Str
  IsDir : Bool
  days : Option (List (FileRead (List InputMessage)))

/-- What `main` finds on disk: the listing of the archive directory (`none`
when `os.ReadDir` fails) and `users.json`. -/
structure Archive where
  entries : Option (List DirEntry)
  usersFile : FileRead (List InputUser)

/-- The `log.Fatalf` exits of `main`. -/
inductive Fatal where
  /-- The exit "invalid file path" -/
  | invalidPath
  /-- The exit "could not open users file" -/
  | openUsers
  /-- The exit "could not unmarshal users" -/
  | unmarshalUsers
  /-- The exit "could not read channel messages" -/
  | readChannel (err : ReadError)
deriving DecidableEq

/-- How a run ends: the files written, and the fatal error if there was one. -/
structure Outcome where
  written : List OutFile
  fatal : Option Fatal
deriving DecidableEq

/-- The assignment `channelsMap[name] = messages` on a map kept as a list of
bindings. -/
def setChannel (name : Str) (messages : List Message) :
    List (Str × List Message) → List (Str × List Message)
  | [] => [(name, messages)]
  | p :: rest => if p.1 = name then (name, messages) :: rest else p :: setChannel name messages rest

/-- The loop of lines 53-66: every directory of the archive is read into
`channelsMap`; the first channel that fails ends the run. -/
def loadChannels (parseTs : Str → Option Int) (usersMap : UsersMap) :
    List DirEntry → List (Str × List Message) → Except ReadError (List (Str × List Message))
  | [], channelsMap => .ok channelsMap
  | channel :: rest, channelsMap =>
    if !channel.IsDir then loadChannels parseTs usersMap rest channelsMap
    else
      match readChannel parseTs usersMap channel.days with
      | .error err => .error err
      | .ok messages =>
        loadChannels parseTs usersMap rest (setChannel channel.Name messages channelsMap)

/-- The function `main` once the argument count is right.  The second loop ranges over
`channelsMap`, here in the order the channels were first stored (Go fixes no
order). -/
def main (parseTs : Str → Option Int) (zone : Int → Int) (archive : Archive) : Outcome :=
  match archive.entries with
  | none => ⟨[], some .invalidPath⟩
  | some channels =>
    match archive.usersFile with
    | .unreadable => ⟨[], some .openUsers⟩
    | .malformed => ⟨[], some .unmarshalUsers⟩
    | .decoded users =>
      let usersMap := buildUsers users
      match loadChannels parseTs usersMap channels [] with
      | .error err => ⟨[], some (.readChannel err)⟩
      | .ok channelsMap =>
        ⟨channelsMap.foldl (fun written p => written ++ writeChannel zone p.1 p.2) [], none⟩

/-! ## Texts made of mention tokens, for the statements -/

/-- The mention token `<@id>`. -/
def token (id : Str) : Str :=
  '<' :: '@' :: id ++ ['>']

/-- The text `seg0 <@id1> seg1 <@id2> seg2 ...`, from the leading segment and
the list of `(id, following segment)`. -/
def mentionText : Str → List (Str × Str) → Str
  | seg0, [] => seg0
  | seg0, it :: rest => seg0 ++ token it.1 ++ mentionText it.2 rest

/-- The same text with every token `<@id>` turned into `@` and the name the
table gives for `id`. -/
def resolvedText (users : UsersMap) : Str → List (Str × Str) → Str
  | seg0, [] => seg0
  | seg0, it :: rest => seg0 ++ '@' :: (users.index it.1).Name ++ resolvedText users it.2 rest

/-- The text in which only the tokens of the identifiers in `done` are
resolved. -/
def partialText (users : UsersMap) (done : List Str) : Str → List (Str × Str) → Str
  | seg0, [] => seg0
  | seg0, it :: rest =>
    seg0 ++ (if it.1 ∈ done then '@' :: (users.index it.1).Name else token it.1) ++
      partialText users done it.2 rest

/-- The suffix of `p` that begins at its last `@`, for a `p` that holds one
(the reading of the specification for the label kept from a subteam token). -/
def fromLastAt (p : Str) : Str :=
  '@' :: (p.reverse.takeWhile (fun c => c != '@')).reverse

/-- The suffix of `p` that begins at its first `@`. -/
def fromFirstAt (p : Str) : Str :=
  p.dropWhile (fun c => c != '@')

/-- The decimal numeral of `n`. -/
def decimal (n : Nat) : Str :=
  (toString n).toList

/-- The decimal numeral of `n`, zero-padded to 2 digits. -/
def zeroPad2 (n : Nat) : Str :=
  if n < 10 then '0' :: decimal n else decimal n

/-- The block of one message in the transcript, in the words of the
specification: month (2 digits), `/`, day, space, hour (2 digits), `:`, minute
(2 digits), space, user, `: `, text, newline, and one more newline. -/
def transcriptBlock (zone : Int → Int) (msg : Message) : Str :=
  zeroPad2 (Month zone msg.Time) ++ "/".toList ++ decimal (Day zone msg.Time) ++ " ".toList ++
    zeroPad2 (Clock zone msg.Time).1 ++ ":".toList ++ zeroPad2 (Clock zone msg.Time).2 ++
    " ".toList ++ msg.User ++ ": ".toList ++ msg.Text ++ "\n".toList ++ "\n".toList

/-- The mention and subteam passes in the order of the source: mentions
first. -/
def mentionsThenSubteams (users : UsersMap) (text : Str) : Str :=
  stripSubteams (rewriteMentions users text)

/-- The same two passes in the opposite order: subteams first. -/
def subteamsThenMentions (users : UsersMap) (text : Str) : Str :=
  rewriteMentions users (stripSubteams text)

/-- The message line of the transcript without its newline. -/
def transcriptLine (zone : Int → Int) (msg : Message) : Str :=
  zeroPad2 (Month zone msg.Time) ++ "/".toList ++ decimal (Day zone msg.Time) ++ " ".toList ++
    zeroPad2 (Clock zone msg.Time).1 ++ ":".toList ++ zeroPad2 (Clock zone msg.Time).2 ++
    " ".toList ++ msg.User ++ ": ".toList ++ msg.Text

/-- The newline-terminated lines of a text, each without its newline, and
what follows the last newline. -/
def splitLines : Str → List Str × Str
  | [] => ([], [])
  | c :: cs =>
    if c = '\n' then ([] :: (splitLines cs).1, (splitLines cs).2)
    else
      match (splitLines cs).1 with
      | [] => ([], c :: (splitLines cs).2)
      | l :: ls => ((c :: l) :: ls, (splitLines cs).2)

/-- The exclusion filter of lines 149-155 lets the record through. -/
def passes (r : InputMessage) : Prop :=
  r.Type_ = "message".toList ∧ r.SubType ≠ "channel_join".toList ∧ r.ParentUserId = []

instance (r : InputMessage) : Decidable (passes r) := by
  unfold passes; infer_instance

/-! ## Facts about the matcher -/

theorem starLoop_run (cs : List Char) (k : Str → Nat → Nat × Nat → Option (Nat × Nat × Nat))
    (run tail : Str) (pos : Nat) (cap : Nat × Nat) (r : Nat × Nat × Nat)
    (hrun : ∀ c ∈ run, c ∉ cs)
    (hk : starLoop cs k tail (pos + run.length) cap = some r) :
    starLoop cs k (run ++ tail) pos cap = some r := by
  induction run generalizing pos with
  | nil => simpa using hk
  | cons x xs ih =>
    have hx : x ∉ cs := hrun x (List.mem_cons_self _ _)
    have hxs : ∀ c ∈ xs, c ∉ cs := fun c hc => hrun c (List.mem_cons_of_mem _ hc)
    have h := ih (pos + 1) hxs (by simpa [Nat.add_assoc, Nat.add_comm 1] using hk)
    simp [starLoop, hx, h, Option.orElse]

theorem starLoop_stop (cs : List Char) (k : Str → Nat → Nat × Nat → Option (Nat × Nat × Nat))
    (x : Char) (xs : Str) (pos : Nat) (cap : Nat × Nat) (hx : x ∈ cs) :
    starLoop cs k (x :: xs) pos cap = k (x :: xs) pos cap := by
  simp [starLoop, hx]

theorem starLoop_backtrack (cs : List Char)
    (k : Str → Nat → Nat × Nat → Option (Nat × Nat × Nat))
    (run tail : Str) (pos : Nat) (cap : Nat × Nat)
    (hrun : ∀ c ∈ run, c ∉ cs)
    (hk : ∀ a b, run = a ++ b → b ≠ [] → k (b ++ tail) (pos + a.length) cap = none) :
    starLoop cs k (run ++ tail) pos cap = starLoop cs k tail (pos + run.length) cap := by
  induction run generalizing pos with
  | nil => simp
  | cons x xs ih =>
    have hx : x ∉ cs := hrun x (List.mem_cons_self _ _)
    have hxs : ∀ c ∈ xs, c ∉ cs := fun c hc => hrun c (List.mem_cons_of_mem _ hc)
    have h0 : k (x :: (xs ++ tail)) pos cap = none := by
      simpa using hk [] (x :: xs) rfl (by simp)
    have h := ih (pos + 1) hxs (by
      intro a b hab hb
      have := hk (x :: a) b (by simp [hab]) hb
      simpa [Nat.add_assoc, Nat.add_comm 1] using this)
    rw [List.cons_append, starLoop, if_neg hx, h, h0]
    have e : pos + (x :: xs).length = pos + 1 + xs.length := by
      simp [Nat.add_assoc, Nat.add_comm 1]
    rw [e]
    cases starLoop cs k tail (pos + 1 + xs.length) cap <;> rfl

theorem matchHere_lit_ne (c x : Char) (re : List Atom) (xs : Str) (pos : Nat) (cap : Nat × Nat)
    (h : x ≠ c) : matchHere (.lit c :: re) (x :: xs) pos cap = none := by
  simp [matchHere, h]

theorem matchHere_lit_eq (c : Char) (re : List Atom) (xs : Str) (pos : Nat) (cap : Nat × Nat) :
    matchHere (.lit c :: re) (c :: xs) pos cap = matchHere re xs (pos + 1) cap := by
  simp [matchHere]

theorem matchHere_star (cs : List Char) (re : List Atom) (s : Str) (pos : Nat)
    (cap : Nat × Nat) :
    matchHere (.starNot cs :: re) s pos cap = starLoop cs (matchHere re) s pos cap := rfl

theorem matchHere_open (re : List Atom) (s : Str) (pos : Nat) (cap : Nat × Nat) :
    matchHere (.openGroup :: re) s pos cap = matchHere re s pos (pos, cap.2) := rfl

theorem matchHere_close (re : List Atom) (s : Str) (pos : Nat) (cap : Nat × Nat) :
    matchHere (.closeGroup :: re) s pos cap = matchHere re s pos (cap.1, pos) := rfl

theorem matchHere_nil (s : Str) (pos : Nat) (cap : Nat × Nat) :
    matchHere [] s pos cap = some (pos, cap) := by
  cases s <;> rfl

theorem matchHere_lit_nil (c : Char) (re : List Atom) (pos : Nat) (cap : Nat × Nat) :
    matchHere (.lit c :: re) [] pos cap = none := by
  simp [matchHere]

theorem findFirst_skip (c : Char) (re : List Atom) (a b : Str) (ha : c ∉ a) :
    findFirst (.lit c :: re) (a ++ b) = findFirst (.lit c :: re) b := by
  induction a with
  | nil => rfl
  | cons x xs ih =>
    have hx : x ≠ c := fun h => ha (h ▸ List.mem_cons_self _ _)
    have hxs : c ∉ xs := fun h => ha (List.mem_cons_of_mem _ h)
    rw [List.cons_append, findFirst, matchHere_lit_ne c x re _ 0 (0, 0) hx]
    exact ih hxs

theorem findFirst_none (c : Char) (re : List Atom) (s : Str) (hs : c ∉ s) :
    findFirst (.lit c :: re) s = none := by
  have h := findFirst_skip c re s [] hs
  rw [List.append_nil] at h
  rw [h]
  simp [findFirst, matchHere]

theorem FindAll_none (c : Char) (re : List Atom) (n : Nat) (s : Str) (hs : c ∉ s) :
    FindAllStringSubmatch (.lit c :: re) n s = [] := by
  cases n with
  | zero => rfl
  | succ n => simp [FindAllStringSubmatch, findFirst_none c re s hs]

/-! ## Facts about `Replace` -/

theorem cut_cons (old : Str) (x : Char) (xs : Str) :
    cut old (x :: xs) =
      if old.isPrefixOf (x :: xs) then some ([], List.drop old.length (x :: xs))
      else (cut old xs).map fun p => (x :: p.1, p.2) := rfl

theorem cut_skip (c : Char) (old a b : Str) (ha : c ∉ a) :
    cut (c :: old) (a ++ b) = (cut (c :: old) b).map fun p => (a ++ p.1, p.2) := by
  induction a with
  | nil => simp
  | cons x xs ih =>
    have hx : x ≠ c := fun h => ha (h ▸ List.mem_cons_self _ _)
    have hxs : c ∉ xs := fun h => ha (List.mem_cons_of_mem _ h)
    have hp : (c :: old).isPrefixOf (x :: (xs ++ b)) = false := by
      have hcx : ¬ c = x := fun h => hx h.symm
      simp [List.isPrefixOf, hcx]
    rw [List.cons_append, cut_cons, hp, ih hxs]
    cases cut (c :: old) b <;> rfl

theorem cut_none (c : Char) (old s : Str) (hs : c ∉ s) : cut (c :: old) s = none := by
  have h := cut_skip c old s [] hs
  simpa [cut] using h

theorem cut_here (old b : Str) (hold : old ≠ []) : cut old (old ++ b) = some ([], b) := by
  cases old with
  | nil => exact absurd rfl hold
  | cons c cs =>
    have h : (c :: cs).isPrefixOf (c :: (cs ++ b)) = true := by
      rw [← List.cons_append]
      exact List.isPrefixOf_iff_prefix.mpr (List.prefix_append _ _)
    rw [List.cons_append, cut_cons, h, if_pos rfl, ← List.cons_append, List.drop_left]

theorem Replace_none (c : Char) (old new s : Str) (n : Nat) (hs : c ∉ s) :
    Replace s (c :: old) new n = s := by
  cases n with
  | zero => rfl
  | succ n => simp [Replace, cut_none c old s hs]

/-! ## The mention pattern on a token -/

theorem matchHere_token (id rest : Str)
    (hid : '<' ∉ id ∧ '>' ∉ id ∧ '@' ∉ id) :
    matchHere mentionRe (token id ++ rest) 0 (0, 0) = some (id.length + 3, 1, id.length + 2) := by
  have hrun : ∀ c ∈ id, c ∉ ['<', '>', '@'] := by
    intro c hc hmem
    simp only [List.mem_cons, List.mem_singleton, List.not_mem_nil, or_false] at hmem
    rcases hmem with h | h | h
    · exact hid.1 (h ▸ hc)
    · exact hid.2.1 (h ▸ hc)
    · exact hid.2.2 (h ▸ hc)
  have h := starLoop_run ['<', '>', '@'] (matchHere [.closeGroup, .lit '>']) id ('>' :: rest)
    2 (1, 0) (2 + id.length + 1, 1, 2 + id.length) hrun (by
      rw [starLoop_stop _ _ _ _ _ _ (by simp), matchHere_close, matchHere_lit_eq,
        matchHere_nil])
  have e : token id ++ rest = '<' :: '@' :: (id ++ '>' :: rest) := by simp [token]
  rw [e, mentionRe, matchHere_lit_eq, matchHere_open, matchHere_lit_eq, matchHere_star]
  rw [h]
  simp only [Option.some.injEq, Prod.mk.injEq]
  exact ⟨by omega, trivial, by omega⟩

theorem findFirst_token (a id rest : Str) (ha : '<' ∉ a)
    (hid : '<' ∉ id ∧ '>' ∉ id ∧ '@' ∉ id) :
    findFirst mentionRe (a ++ (token id ++ rest)) = some (⟨token id, '@' :: id⟩, rest) := by
  have hre : mentionRe = .lit '<' :: mentionRe.tail := rfl
  rw [hre, findFirst_skip '<' _ a _ ha, ← hre]
  have hm := matchHere_token id rest hid
  have e : token id ++ rest = '<' :: ('@' :: id ++ '>' :: rest) := by simp [token]
  rw [e] at hm ⊢
  rw [findFirst, hm]
  have e1 : List.take (id.length + 3) ('<' :: ('@' :: id ++ '>' :: rest)) = token id := by
    have : '<' :: ('@' :: id ++ '>' :: rest) = token id ++ rest := e.symm
    rw [this]
    exact List.take_left' (by simp [token])
  have e2 : List.drop (id.length + 3) ('<' :: ('@' :: id ++ '>' :: rest)) = rest := by
    have : '<' :: ('@' :: id ++ '>' :: rest) = token id ++ rest := e.symm
    rw [this]
    exact List.drop_left' (by simp [token])
  have e3 : List.take (id.length + 2 - 1) (List.drop 1 ('<' :: ('@' :: id ++ '>' :: rest)))
      = '@' :: id := by
    simp only [List.drop_succ_cons, List.drop_zero]
    exact List.take_left' (by simp)
  simp only [e1, e2, e3]

theorem FindAll_mentionText (n : Nat) (seg0 : Str) (items : List (Str × Str))
    (hseg0 : '<' ∉ seg0)
    (hitems : ∀ it ∈ items, ('<' ∉ it.1 ∧ '>' ∉ it.1 ∧ '@' ∉ it.1) ∧ '<' ∉ it.2) :
    FindAllStringSubmatch mentionRe n (mentionText seg0 items)
      = (items.take n).map fun it => ⟨token it.1, '@' :: it.1⟩ := by
  induction items generalizing n seg0 with
  | nil =>
    have hre : mentionRe = .lit '<' :: mentionRe.tail := rfl
    rw [hre, mentionText, FindAll_none '<' _ n seg0 hseg0]
    simp
  | cons it rest ih =>
    cases n with
    | zero => rfl
    | succ n =>
      have hit := hitems it (List.mem_cons_self _ _)
      have hrest : ∀ x ∈ rest, ('<' ∉ x.1 ∧ '>' ∉ x.1 ∧ '@' ∉ x.1) ∧ '<' ∉ x.2 :=
        fun x hx => hitems x (List.mem_cons_of_mem _ hx)
      rw [mentionText, List.append_assoc, FindAllStringSubmatch,
        findFirst_token seg0 it.1 _ hseg0 hit.1]
      simp only [List.take_succ_cons, List.map_cons]
      rw [ih n it.2 hit.2 hrest]

/-! ## One round of the mention loop -/

theorem token_isPrefixOf (id i rest : Str) (hid : '>' ∉ id) (hi : '>' ∉ i)
    (h : (token id).isPrefixOf (token i ++ rest) = true) : id = i := by
  have h1 : token id <+: token i ++ rest := List.isPrefixOf_iff_prefix.mp h
  have h2 : id ++ ['>'] <+: i ++ '>' :: rest := by
    simp only [token, List.cons_append, List.append_assoc] at h1
    have := (List.cons_prefix_cons.mp h1).2
    exact (List.cons_prefix_cons.mp this).2
  clear h h1
  induction id generalizing i with
  | nil =>
    cases i with
    | nil => rfl
    | cons c i' =>
      have := (List.cons_prefix_cons.mp h2).1
      exact absurd (this ▸ List.mem_cons_self _ _) hi
  | cons x id' ih =>
    cases i with
    | nil =>
      have := (List.cons_prefix_cons.mp h2).1
      exact absurd (this ▸ List.mem_cons_self _ _ : '>' ∈ x :: id') hid
    | cons c i' =>
      have h3 := List.cons_prefix_cons.mp h2
      rw [h3.1, ih i' (fun h => hid (List.mem_cons_of_mem _ h))
        (fun h => hi (List.mem_cons_of_mem _ h)) h3.2]

theorem Replace_skip (c : Char) (old new a t : Str) (n : Nat) (ha : c ∉ a)
    (hp : (c :: old).isPrefixOf (c :: t) = false) :
    Replace (a ++ c :: t) (c :: old) new n = a ++ c :: Replace t (c :: old) new n := by
  cases n with
  | zero => rfl
  | succ n =>
    rw [Replace, Replace, cut_skip c old a _ ha, cut_cons, hp]
    cases cut (c :: old) t with
    | none => rfl
    | some p => simp

theorem partialText_append (users : UsersMap) (done : List Str) (a b : Str)
    (items : List (Str × Str)) :
    partialText users done (a ++ b) items = a ++ partialText users done b items := by
  cases items <;> simp [partialText]

theorem Replace_partialText (users : UsersMap) (done : List Str) (id : Str)
    (hid : '>' ∉ id) (items : List (Str × Str)) (seg0 : Str) (n : Nat)
    (hn : items.length ≤ n) (hseg0 : '<' ∉ seg0)
    (hitems : ∀ it ∈ items,
      ('<' ∉ it.1 ∧ '>' ∉ it.1) ∧ '<' ∉ it.2 ∧ '<' ∉ (users.index it.1).Name) :
    Replace (partialText users done seg0 items) (token id) ('@' :: (users.index id).Name) n
      = partialText users (id :: done) seg0 items := by
  induction items generalizing seg0 n with
  | nil => exact Replace_none '<' _ _ seg0 n hseg0
  | cons it rest ih =>
    have hit := hitems it (List.mem_cons_self _ _)
    have hrest : ∀ x ∈ rest,
        ('<' ∉ x.1 ∧ '>' ∉ x.1) ∧ '<' ∉ x.2 ∧ '<' ∉ (users.index x.1).Name :=
      fun x hx => hitems x (List.mem_cons_of_mem _ hx)
    have hlen : rest.length ≤ n := Nat.le_of_succ_le (by simpa using hn)
    by_cases hdone : it.1 ∈ done
    · -- the token was resolved in an earlier round: nothing to find in it
      have hdone2 : it.1 ∈ id :: done := List.mem_cons_of_mem _ hdone
      have hseg : '<' ∉ seg0 ++ '@' :: (users.index it.1).Name ++ it.2 := by
        simp only [List.mem_append, List.mem_cons, not_or]
        exact ⟨⟨hseg0, by decide, hit.2.2⟩, hit.2.1⟩
      have h := ih (seg0 ++ '@' :: (users.index it.1).Name ++ it.2) n hlen hseg hrest
      simp only [partialText, if_pos hdone, if_pos hdone2]
      rw [partialText_append] at h
      rw [partialText_append] at h
      simpa [List.append_assoc] using h
    · by_cases hsame : it.1 = id
      · -- the token of this round
        have hdone2 : it.1 ∈ id :: done := hsame ▸ List.mem_cons_self _ _
        obtain ⟨m, rfl⟩ : ∃ m, n = m + 1 := ⟨n - 1, by simp at hn; omega⟩
        have hlen2 : rest.length ≤ m := by simpa using hn
        have hc : cut (token id) (seg0 ++ (token id ++ partialText users done it.2 rest))
            = some (seg0, partialText users done it.2 rest) := by
          have := cut_skip '<' ('@' :: id ++ ['>']) seg0
            (token id ++ partialText users done it.2 rest) hseg0
          rw [show '<' :: ('@' :: id ++ ['>']) = token id from rfl] at this
          rw [this, cut_here _ _ (by simp [token])]
          simp
        simp only [partialText, if_neg hdone, if_pos hdone2]
        rw [hsame, List.append_assoc, Replace, hc]
        simp only
        rw [ih it.2 m hlen2 hit.2.1 hrest]
      · -- another token: its `<` starts no instance of `old`
        have hdone2 : it.1 ∉ id :: done := by
          simp only [List.mem_cons, not_or]
          exact ⟨hsame, hdone⟩
        have hp : (token id).isPrefixOf (token it.1 ++ partialText users done it.2 rest) = false := by
          cases hb : (token id).isPrefixOf (token it.1 ++ partialText users done it.2 rest) with
          | false => rfl
          | true => exact absurd (token_isPrefixOf id it.1 _ hid hit.1.2 hb).symm hsame
        have hseg : '<' ∉ '@' :: it.1 ++ '>' :: it.2 := by
          simp only [List.cons_append, List.mem_cons, List.mem_append, not_or]
          exact ⟨by decide, hit.1.1, by decide, hit.2.1⟩
        have h := ih ('@' :: it.1 ++ '>' :: it.2) n hlen hseg hrest
        have e : ∀ d, token it.1 ++ partialText users d it.2 rest
            = '<' :: ('@' :: it.1 ++ partialText users d ('>' :: it.2) rest) := by
          intro d
          rw [show '>' :: it.2 = ['>'] ++ it.2 from rfl, partialText_append]
          simp [token]
        have e2 : ∀ d, partialText users d ('@' :: it.1 ++ '>' :: it.2) rest
            = '@' :: it.1 ++ partialText users d ('>' :: it.2) rest := by
          intro d
          rw [partialText_append]
        simp only [partialText, if_neg hdone, if_neg hdone2]
        rw [List.append_assoc, List.append_assoc]
        rw [e] at hp ⊢
        rw [e]
        rw [show token id = '<' :: ('@' :: id ++ ['>']) from rfl] at hp ⊢
        rw [Replace_skip '<' _ _ seg0 _ n hseg0 hp]
        rw [show '<' :: ('@' :: id ++ ['>']) = token id from rfl]
        rw [← e2, ← e2, h]

theorem partialText_length (users : UsersMap) (done : List Str) (seg0 : Str)
    (items : List (Str × Str)) :
    items.length ≤ (partialText users done seg0 items).length := by
  induction items generalizing seg0 with
  | nil => simp
  | cons it rest ih =>
    have h := ih it.2
    simp only [partialText, List.length_append, List.length_cons]
    split
    · simp only [List.length_cons]; omega
    · simp only [token, List.length_cons, List.length_append]; omega

theorem partialText_nil (users : UsersMap) (seg0 : Str) (items : List (Str × Str)) :
    partialText users [] seg0 items = mentionText seg0 items := by
  induction items generalizing seg0 with
  | nil => rfl
  | cons it rest ih => simp [partialText, mentionText, ih]

theorem partialText_all (users : UsersMap) (done : List Str) (seg0 : Str)
    (items : List (Str × Str)) (h : ∀ it ∈ items, it.1 ∈ done) :
    partialText users done seg0 items = resolvedText users seg0 items := by
  induction items generalizing seg0 with
  | nil => rfl
  | cons it rest ih =>
    have hit := h it (List.mem_cons_self _ _)
    simp [partialText, resolvedText, hit, ih it.2 (fun x hx => h x (List.mem_cons_of_mem _ hx))]

theorem resolvedText_no_lt (users : UsersMap) (seg0 : Str) (items : List (Str × Str))
    (hseg0 : '<' ∉ seg0)
    (hitems : ∀ it ∈ items, '<' ∉ it.2 ∧ '<' ∉ (users.index it.1).Name) :
    '<' ∉ resolvedText users seg0 items := by
  induction items generalizing seg0 with
  | nil => exact hseg0
  | cons it rest ih =>
    have hit := hitems it (List.mem_cons_self _ _)
    have h := ih it.2 hit.1 (fun x hx => hitems x (List.mem_cons_of_mem _ hx))
    simp only [resolvedText, List.mem_append, List.mem_cons, not_or]
    exact ⟨⟨hseg0, by decide, hit.2⟩, h⟩

theorem mentionLoop (users : UsersMap) (seg0 : Str) (items : List (Str × Str))
    (hseg0 : '<' ∉ seg0)
    (hitems : ∀ it ∈ items,
      ('<' ∉ it.1 ∧ '>' ∉ it.1) ∧ '<' ∉ it.2 ∧ '<' ∉ (users.index it.1).Name)
    (ms : List (Str × Str)) (hms : ∀ m ∈ ms, '>' ∉ m.1) (done : List Str) :
    (ms.map fun it => (⟨token it.1, '@' :: it.1⟩ : Submatch)).foldl
        (fun text m => ReplaceAll text m.whole ('@' :: (users.index (m.group.drop 1)).Name))
        (partialText users done seg0 items)
      = partialText users ((ms.map Prod.fst).reverse ++ done) seg0 items := by
  induction ms generalizing done with
  | nil => rfl
  | cons m rest ih =>
    have hm := hms m (List.mem_cons_self _ _)
    have hR : ReplaceAll (partialText users done seg0 items) (token m.1)
        ('@' :: (users.index m.1).Name) = partialText users (m.1 :: done) seg0 items :=
      Replace_partialText users done m.1 hm items seg0 _
        (partialText_length users done seg0 items) hseg0 hitems
    simp only [List.map_cons, List.foldl_cons, List.drop_succ_cons, List.drop_zero]
    rw [hR, ih (fun x hx => hms x (List.mem_cons_of_mem _ hx)) (m.1 :: done)]
    simp

theorem rewriteMentions_mentionText (users : UsersMap) (seg0 : Str)
    (items : List (Str × Str)) (hcount : items.length ≤ 999) (hseg0 : '<' ∉ seg0)
    (hitems : ∀ it ∈ items,
      ('<' ∉ it.1 ∧ '>' ∉ it.1 ∧ '@' ∉ it.1) ∧ '<' ∉ it.2 ∧ '<' ∉ (users.index it.1).Name) :
    rewriteMentions users (mentionText seg0 items) = resolvedText users seg0 items := by
  have h1 := FindAll_mentionText 999 seg0 items hseg0 (fun it hit =>
    ⟨(hitems it hit).1, (hitems it hit).2.1⟩)
  rw [List.take_of_length_le hcount] at h1
  have h2 := mentionLoop users seg0 items hseg0
    (fun it hit => ⟨⟨(hitems it hit).1.1, (hitems it hit).1.2.1⟩, (hitems it hit).2⟩)
    items (fun it hit => (hitems it hit).1.2.1) []
  rw [partialText_nil] at h2
  rw [rewriteMentions, h1]
  simp only at h2 ⊢
  rw [h2]
  exact partialText_all users _ seg0 items (fun it hit => by
    simp only [List.append_nil, List.mem_reverse, List.mem_map]
    exact ⟨it, hit, rfl⟩)

theorem stripSubteams_no_lt (text : Str) (h : '<' ∉ text) : stripSubteams text = text := by
  have hre : subteamRe = .lit '<' :: subteamRe.tail := rfl
  rw [stripSubteams, hre, FindAll_none '<' _ 999 text h]
  rfl

theorem rewriteChannels_no_lt (text : Str) (h : '<' ∉ text) : rewriteChannels text = text := by
  have hre : channelRe = .lit '<' :: channelRe.tail := rfl
  rw [rewriteChannels, hre, FindAll_none '<' _ 999 text h]
  rfl

theorem normalizeText_mentionText (users : UsersMap) (seg0 : Str)
    (items : List (Str × Str)) (hcount : items.length ≤ 999) (hseg0 : '<' ∉ seg0)
    (hitems : ∀ it ∈ items,
      ('<' ∉ it.1 ∧ '>' ∉ it.1 ∧ '@' ∉ it.1) ∧ '<' ∉ it.2 ∧ '<' ∉ (users.index it.1).Name) :
    normalizeText users (mentionText seg0 items) = resolvedText users seg0 items := by
  have hno := resolvedText_no_lt users seg0 items hseg0
    (fun it hit => ⟨(hitems it hit).2.1, (hitems it hit).2.2⟩)
  rw [normalizeText, rewriteMentions_mentionText users seg0 items hcount hseg0 hitems,
    stripSubteams_no_lt _ hno, rewriteChannels_no_lt _ hno]

/-! ## The record loop -/

theorem processRecord_skip (parseTs : Str → Option Int) (users : UsersMap) (r : InputMessage)
    (h : ¬ passes r) : processRecord parseTs users r = .skip := by
  have h2 : r.Type_ ≠ "message".toList ∨ r.SubType = "channel_join".toList ∨
      r.ParentUserId ≠ [] := by
    unfold passes at h
    by_contra hc
    simp only [not_or, ne_eq, not_not] at hc
    exact h ⟨hc.1, hc.2.1, hc.2.2⟩
  simp only [processRecord]
  rw [if_pos h2]

theorem processRecord_fail (parseTs : Str → Option Int) (users : UsersMap) (r : InputMessage)
    (h : passes r) (hts : parseTs r.Timestamp = none) :
    processRecord parseTs users r = .fail .invalidTimestamp := by
  have h2 : ¬ (r.Type_ ≠ "message".toList ∨ r.SubType = "channel_join".toList ∨
      r.ParentUserId ≠ []) := by
    unfold passes at h
    simp only [not_or, ne_eq, not_not]
    exact ⟨h.1, h.2.1, h.2.2⟩
  simp only [processRecord]
  rw [if_neg h2, hts]

theorem processRecord_emit (parseTs : Str → Option Int) (users : UsersMap) (r : InputMessage)
    (ts : Int) (h : passes r) (hts : parseTs r.Timestamp = some ts) :
    processRecord parseTs users r
      = .emit ⟨(users.index r.UserId).Name, normalizeText users r.Text, ts⟩ := by
  have h2 : ¬ (r.Type_ ≠ "message".toList ∨ r.SubType = "channel_join".toList ∨
      r.ParentUserId ≠ []) := by
    unfold passes at h
    simp only [not_or, ne_eq, not_not]
    exact ⟨h.1, h.2.1, h.2.2⟩
  simp only [processRecord]
  rw [if_neg h2, hts]
  rfl

theorem index_name_no_lt (users : UsersMap) (hnames : ∀ k u, users k = some u → '<' ∉ u.Name)
    (id : Str) : '<' ∉ (users.index id).Name := by
  unfold UsersMap.index
  cases h : users id with
  | none => simp
  | some u => simpa using hnames id u h

/-! ## Texts with a single tag -/

theorem starLoop_nil (cs : List Char) (k : Str → Nat → Nat × Nat → Option (Nat × Nat × Nat))
    (pos : Nat) (cap : Nat × Nat) : starLoop cs k [] pos cap = k [] pos cap := rfl

theorem starLoop_cons (cs : List Char) (k : Str → Nat → Nat × Nat → Option (Nat × Nat × Nat))
    (x : Char) (xs : Str) (pos : Nat) (cap : Nat × Nat) (hx : x ∉ cs) :
    starLoop cs k (x :: xs) pos cap
      = (starLoop cs k xs (pos + 1) cap).orElse (fun _ => k (x :: xs) pos cap) := by
  rw [starLoop, if_neg hx]

theorem findFirst_cons_none (re : List Atom) (x : Char) (xs : Str)
    (h1 : matchHere re (x :: xs) 0 (0, 0) = none) (h2 : findFirst re xs = none) :
    findFirst re (x :: xs) = none := by
  rw [findFirst, h1]
  exact h2

theorem findFirst_here (re : List Atom) (s tail : Str) (a b : Nat)
    (hs : s ≠ []) (h : matchHere re (s ++ tail) 0 (0, 0) = some (s.length, a, b)) :
    findFirst re (s ++ tail)
      = some (⟨s, List.take (b - a) (List.drop a (s ++ tail))⟩, tail) := by
  cases s with
  | nil => exact absurd rfl hs
  | cons x xs =>
    rw [List.cons_append] at h ⊢
    rw [findFirst, h]
    simp only
    rw [← List.cons_append, List.take_left, List.drop_left]

theorem FindAll_single (c : Char) (re : List Atom) (n : Nat) (s : Str) (m : Submatch)
    (h : findFirst (.lit c :: re) s = some (m, [])) :
    FindAllStringSubmatch (.lit c :: re) (n + 1) s = [m] := by
  rw [FindAllStringSubmatch, h]
  simp only
  rw [FindAll_none c re n [] (by simp)]

theorem FindAll_of_none (re : List Atom) (n : Nat) (s : Str) (h : findFirst re s = none) :
    FindAllStringSubmatch re n s = [] := by
  cases n with
  | zero => rfl
  | succ n => rw [FindAllStringSubmatch, h]

theorem Replace_whole (s new : Str) (hs : s ≠ []) : Replace s s new 1 = new := by
  have h := cut_here s [] hs
  rw [List.append_nil] at h
  rw [Replace, h]
  simp [Replace]

/-- A text whose only `<` is its first rune, followed by something else than
`@`, holds no mention. -/
theorem rewriteMentions_tag (users : UsersMap) (x : Char) (t : Str) (hx : x ≠ '@')
    (ht : '<' ∉ x :: t) : rewriteMentions users ('<' :: x :: t) = '<' :: x :: t := by
  have hre : mentionRe = .lit '<' :: mentionRe.tail := rfl
  have h1 : matchHere mentionRe ('<' :: x :: t) 0 (0, 0) = none := by
    rw [mentionRe, matchHere_lit_eq, matchHere_open, matchHere_lit_ne _ _ _ _ _ _ hx]
  have h2 : findFirst mentionRe (x :: t) = none := by
    rw [hre]
    exact findFirst_none '<' _ _ ht
  rw [rewriteMentions, FindAll_of_none _ _ _ (findFirst_cons_none _ _ _ h1 h2)]
  rfl

/-- A text whose only `<` is its first rune, followed by something else than
`!`, holds no subteam tag. -/
theorem stripSubteams_tag (x : Char) (t : Str) (hx : x ≠ '!') (ht : '<' ∉ x :: t) :
    stripSubteams ('<' :: x :: t) = '<' :: x :: t := by
  have hre : subteamRe = .lit '<' :: subteamRe.tail := rfl
  have h1 : matchHere subteamRe ('<' :: x :: t) 0 (0, 0) = none := by
    rw [subteamRe, matchHere_lit_eq, matchHere_lit_ne _ _ _ _ _ _ hx]
  have h2 : findFirst subteamRe (x :: t) = none := by
    rw [hre]
    exact findFirst_none '<' _ _ ht
  rw [stripSubteams, FindAll_of_none _ _ _ (findFirst_cons_none _ _ _ h1 h2)]
  rfl

theorem split_at_first_at (p : Str) (h : '@' ∈ p) :
    ∃ a b, p = a ++ '@' :: b ∧ '@' ∉ a ∧ fromFirstAt p = '@' :: b := by
  induction p with
  | nil => simp at h
  | cons x xs ih =>
    by_cases hx : x = '@'
    · exact ⟨[], xs, by simp [hx], by simp, by simp [fromFirstAt, hx, List.dropWhile]⟩
    · have hxs : '@' ∈ xs := by
        rcases List.mem_cons.mp h with h | h
        · exact absurd h.symm hx
        · exact h
      obtain ⟨a, b, hab, ha, hf⟩ := ih hxs
      refine ⟨x :: a, b, by simp [hab], ?_, ?_⟩
      · simp only [List.mem_cons, not_or]
        exact ⟨fun h => hx h.symm, ha⟩
      · have hb : (x != '@') = true := by simpa using hx
        rw [fromFirstAt, List.dropWhile_cons, if_pos hb]
        exact hf

/-! ## The subteam pattern -/

theorem matchHere_subteam (a b : Str) (ha : '@' ∉ a) (hb : '>' ∉ b) :
    matchHere subteamRe ("<!subteam".toList ++ (a ++ '@' :: b) ++ ['>']) 0 (0, 0)
      = some (a.length + b.length + 11, a.length + 9, a.length + b.length + 10) := by
  have hrun1 : ∀ c ∈ a, c ∉ ['@'] := by
    intro c hc hmem
    rw [List.mem_singleton] at hmem
    exact ha (hmem ▸ hc)
  have hrun2 : ∀ c ∈ '@' :: b, c ∉ ['>'] := by
    intro c hc hmem
    rw [List.mem_singleton] at hmem
    rcases List.mem_cons.mp hc with h | h
    · rw [hmem] at h; exact absurd h (by decide)
    · exact hb (hmem ▸ h)
  have h2 : starLoop ['>'] (matchHere [.closeGroup, .lit '>']) (('@' :: b) ++ ['>'])
      (9 + a.length) (9 + a.length, 0)
      = some (9 + a.length + (b.length + 1) + 1, 9 + a.length, 9 + a.length + (b.length + 1)) :=
    starLoop_run _ _ _ _ _ _ _ hrun2 (by
      rw [starLoop_stop _ _ _ _ _ _ (by simp), matchHere_close, matchHere_lit_eq,
        matchHere_nil]
      rfl)
  have h1 : starLoop ['@'] (matchHere [.openGroup, .starNot ['>'], .closeGroup, .lit '>'])
      (a ++ (('@' :: b) ++ ['>'])) 9 (0, 0)
      = some (9 + a.length + (b.length + 1) + 1, 9 + a.length, 9 + a.length + (b.length + 1)) :=
    starLoop_run _ _ _ _ _ _ _ hrun1 (by
      rw [List.cons_append, starLoop_stop _ _ _ _ _ _ (by simp), matchHere_open,
        matchHere_star]
      exact h2)
  have e : "<!subteam".toList ++ (a ++ '@' :: b) ++ ['>']
      = '<' :: '!' :: 's' :: 'u' :: 'b' :: 't' :: 'e' :: 'a' :: 'm' :: (a ++ (('@' :: b) ++ ['>'])) := by
    simp
  rw [e, subteamRe]
  iterate 9 rw [matchHere_lit_eq]
  rw [matchHere_star]
  refine h1.trans ?_
  simp only [Option.some.injEq, Prod.mk.injEq]
  exact ⟨by omega, by omega, by omega⟩

theorem stripSubteams_single (a b : Str) (ha : '@' ∉ a) (hb : '>' ∉ b) :
    stripSubteams ("<!subteam".toList ++ (a ++ '@' :: b) ++ ['>']) = '@' :: b := by
  have hne : "<!subteam".toList ++ (a ++ '@' :: b) ++ ['>'] ≠ [] := by simp
  have hm := matchHere_subteam a b ha hb
  have hlen : ("<!subteam".toList ++ (a ++ '@' :: b) ++ ['>']).length
      = a.length + b.length + 11 := by
    have h9 : "<!subteam".toList.length = 9 := rfl
    simp only [List.length_append, List.length_cons, List.length_nil, h9]
    omega
  rw [← hlen] at hm
  have hf := findFirst_here subteamRe _ [] _ _ hne (by rw [List.append_nil]; exact hm)
  rw [List.append_nil] at hf
  have hg : List.take (a.length + b.length + 10 - (a.length + 9))
      (List.drop (a.length + 9) ("<!subteam".toList ++ (a ++ '@' :: b) ++ ['>'])) = '@' :: b := by
    have e : "<!subteam".toList ++ (a ++ '@' :: b) ++ ['>']
        = ("<!subteam".toList ++ a) ++ (('@' :: b) ++ ['>']) := by simp
    have h9 : "<!subteam".toList.length = 9 := rfl
    rw [e, List.drop_left' (by
      simp only [List.length_append, h9]
      omega)]
    exact List.take_left' (by simp only [List.length_cons]; omega)
  rw [hg] at hf
  have hre : subteamRe = .lit '<' :: subteamRe.tail := rfl
  rw [hre] at hf
  rw [stripSubteams, hre, show (999 : Nat) = 998 + 1 from rfl, FindAll_single '<' _ 998 _ _ hf]
  simp only [List.foldl_cons, List.foldl_nil]
  exact Replace_whole _ _ hne

/-! ## The channel pattern -/

theorem matchHere_channel (X Y : Str) (hXn : '\n' ∉ X) (hYn : '\n' ∉ Y) (hYbar : '|' ∉ Y) :
    matchHere channelRe ('<' :: '#' :: (X ++ '|' :: (Y ++ ['>']))) 0 (0, 0)
      = some (X.length + Y.length + 4, X.length + 3, X.length + Y.length + 3) := by
  have hrunX : ∀ c ∈ X, c ∉ ['\n'] := by
    intro c hc hmem
    rw [List.mem_singleton] at hmem
    exact hXn (hmem ▸ hc)
  have hrunY : ∀ c ∈ Y, c ∉ ['\n'] := by
    intro c hc hmem
    rw [List.mem_singleton] at hmem
    exact hYn (hmem ▸ hc)
  have hrunY2 : ∀ c ∈ Y ++ ['>'], c ∉ ['\n'] := by
    intro c hc
    rcases List.mem_append.mp hc with h | h
    · exact hrunY c h
    · rw [List.mem_singleton] at h
      rw [h]
      decide
  -- the group: the second star runs to the end and gives back the last `>`
  have hA : ∀ p c2, starLoop ['\n'] (matchHere [.closeGroup, .lit '>']) (Y ++ ['>']) p (p, c2)
      = some (p + Y.length + 1, p, p + Y.length) := by
    intro p c2
    refine starLoop_run _ _ _ _ _ _ _ hrunY ?_
    rw [starLoop_cons _ _ _ _ _ _ (by decide), starLoop_nil, matchHere_close, matchHere_lit_nil]
    simp only [Option.orElse]
    rw [matchHere_close, matchHere_lit_eq, matchHere_nil]
  -- the continuation of the first star, tried at the `|`
  have hB : ∀ q cap, matchHere [.lit '|', .openGroup, .starNot ['\n'], .closeGroup, .lit '>']
      ('|' :: (Y ++ ['>'])) q cap = some (q + 1 + Y.length + 1, q + 1, q + 1 + Y.length) := by
    intro q cap
    rw [matchHere_lit_eq, matchHere_open, matchHere_star]
    exact hA (q + 1) cap.2
  -- the first star runs to the end and backs up to the `|`
  have hC : ∀ q cap, starLoop ['\n']
      (matchHere [.lit '|', .openGroup, .starNot ['\n'], .closeGroup, .lit '>'])
      ('|' :: (Y ++ ['>'])) q cap = some (q + 1 + Y.length + 1, q + 1, q + 1 + Y.length) := by
    intro q cap
    have hback := starLoop_backtrack ['\n']
      (matchHere [.lit '|', .openGroup, .starNot ['\n'], .closeGroup, .lit '>'])
      (Y ++ ['>']) [] (q + 1) cap hrunY2 (by
        intro a b hab hb
        cases b with
        | nil => exact absurd rfl hb
        | cons c b' =>
          have hc : c ∈ Y ++ ['>'] := by rw [hab]; simp
          have hne : c ≠ '|' := by
            rcases List.mem_append.mp hc with h | h
            · exact fun e => hYbar (e ▸ h)
            · rw [List.mem_singleton] at h
              rw [h]
              decide
          rw [List.cons_append]
          exact matchHere_lit_ne _ _ _ _ _ _ hne)
    rw [List.append_nil] at hback
    rw [starLoop_cons _ _ _ _ _ _ (by decide), hback, starLoop_nil, matchHere_lit_nil]
    simp only [Option.orElse]
    exact hB q cap
  have hD := starLoop_run ['\n']
    (matchHere [.lit '|', .openGroup, .starNot ['\n'], .closeGroup, .lit '>'])
    X ('|' :: (Y ++ ['>'])) 2 (0, 0) _ hrunX (hC (2 + X.length) (0, 0))
  rw [channelRe, matchHere_lit_eq, matchHere_lit_eq, matchHere_star]
  refine hD.trans ?_
  simp only [Option.some.injEq, Prod.mk.injEq]
  exact ⟨by omega, by omega, by omega⟩

theorem rewriteChannels_single (X Y : Str) (hXn : '\n' ∉ X) (hYn : '\n' ∉ Y)
    (hYbar : '|' ∉ Y) :
    rewriteChannels ('<' :: '#' :: (X ++ '|' :: (Y ++ ['>']))) = '#' :: Y := by
  have hne : '<' :: '#' :: (X ++ '|' :: (Y ++ ['>'])) ≠ [] := by simp
  have hm := matchHere_channel X Y hXn hYn hYbar
  have hlen : ('<' :: '#' :: (X ++ '|' :: (Y ++ ['>']))).length = X.length + Y.length + 4 := by
    simp only [List.length_append, List.length_cons, List.length_nil]
    omega
  rw [← hlen] at hm
  have hf := findFirst_here channelRe _ [] _ _ hne (by rw [List.append_nil]; exact hm)
  rw [List.append_nil] at hf
  have hg : List.take (X.length + Y.length + 3 - (X.length + 3))
      (List.drop (X.length + 3) ('<' :: '#' :: (X ++ '|' :: (Y ++ ['>'])))) = Y := by
    have e : '<' :: '#' :: (X ++ '|' :: (Y ++ ['>'])) = ('<' :: '#' :: (X ++ ['|'])) ++ (Y ++ ['>']) := by
      simp
    rw [e, List.drop_left' (by simp only [List.length_append, List.length_cons, List.length_nil])]
    exact List.take_left' (by omega)
  rw [hg] at hf
  have hre : channelRe = .lit '<' :: channelRe.tail := rfl
  rw [hre] at hf
  rw [rewriteChannels, hre, show (999 : Nat) = 998 + 1 from rfl, FindAll_single '<' _ 998 _ _ hf]
  simp only [List.foldl_cons, List.foldl_nil]
  exact Replace_whole _ _ hne

/-! ## The roster loop -/

theorem rosterLoop_other (roster : List InputUser) (m : UsersMap) (id : Str)
    (h : ∀ x ∈ roster, x.Id ≠ id) :
    roster.foldl
        (fun usersMap user =>
          let name := if user.Profile.DisplayName = [] then user.Profile.RealName
            else user.Profile.DisplayName
          usersMap.set user.Id ⟨user.Id, name⟩)
        m id
      = m id := by
  induction roster generalizing m with
  | nil => rfl
  | cons u rest ih =>
    have hu : id ≠ u.Id := fun e => h u (List.mem_cons_self _ _) e.symm
    rw [List.foldl_cons, ih _ (fun x hx => h x (List.mem_cons_of_mem _ hx))]
    simp [UsersMap.set, hu]

/-! ## The channel loops -/

theorem readRecords_ok (parseTs : Str → Option Int) (users : UsersMap)
    (rs : List InputMessage) (acc : List Message)
    (hts : ∀ r ∈ rs, passes r → parseTs r.Timestamp ≠ none) :
    ∃ out, readRecords parseTs users rs acc = .ok (acc ++ out) ∧
      List.Forall₂ (fun r m => processRecord parseTs users r = .emit m)
        (rs.filter fun r => decide (passes r)) out := by
  induction rs generalizing acc with
  | nil => exact ⟨[], by simp [readRecords], by simp⟩
  | cons r rest ih =>
    have hrest : ∀ x ∈ rest, passes x → parseTs x.Timestamp ≠ none :=
      fun x hx => hts x (List.mem_cons_of_mem _ hx)
    by_cases hp : passes r
    · obtain ⟨ts, hr⟩ := Option.ne_none_iff_exists'.mp (hts r (List.mem_cons_self _ _) hp)
      have he := processRecord_emit parseTs users r ts hp hr
      obtain ⟨out, h1, h2⟩ := ih (acc ++ [⟨(users.index r.UserId).Name,
        normalizeText users r.Text, ts⟩]) hrest
      refine ⟨⟨(users.index r.UserId).Name, normalizeText users r.Text, ts⟩ :: out, ?_, ?_⟩
      · rw [readRecords, he]
        simp only
        rw [h1, List.append_assoc]
        rfl
      · rw [List.filter_cons_of_pos (by simpa using hp)]
        exact List.Forall₂.cons he h2
    · obtain ⟨out, h1, h2⟩ := ih acc hrest
      refine ⟨out, ?_, ?_⟩
      · rw [readRecords, processRecord_skip parseTs users r hp]
        exact h1
      · rw [List.filter_cons_of_neg (by simpa using hp)]
        exact h2

theorem readDays_ok (parseTs : Str → Option Int) (users : UsersMap)
    (days : List (List InputMessage)) (acc : List Message)
    (hts : ∀ day ∈ days, ∀ r ∈ day, passes r → parseTs r.Timestamp ≠ none) :
    ∃ out, readDays parseTs users (days.map .decoded) acc = .ok (acc ++ out) ∧
      List.Forall₂ (fun r m => processRecord parseTs users r = .emit m)
        (days.flatten.filter fun r => decide (passes r)) out := by
  induction days generalizing acc with
  | nil => exact ⟨[], by simp [readDays], by simp⟩
  | cons day rest ih =>
    obtain ⟨out1, h1, h2⟩ := readRecords_ok parseTs users day acc
      (hts day (List.mem_cons_self _ _))
    obtain ⟨out2, h3, h4⟩ := ih (acc ++ out1)
      (fun d hd => hts d (List.mem_cons_of_mem _ hd))
    refine ⟨out1 ++ out2, ?_, ?_⟩
    · rw [List.map_cons, readDays, h1]
      simp only
      rw [h3, List.append_assoc]
    · rw [List.flatten_cons, List.filter_append]
      exact List.rel_append h2 h4

/-! ## The transcript -/

theorem toDigitsCore_length (f n : Nat) (ds : List Char) :
    ds.length ≤ (Nat.toDigitsCore 10 f n ds).length := by
  induction f generalizing n ds with
  | zero => simp [Nat.toDigitsCore]
  | succ f ih =>
    simp only [Nat.toDigitsCore]
    split
    · simp
    · exact Nat.le_trans (by simp) (ih _ _)

theorem fmtD_eq_decimal (n : Nat) : fmtD n = decimal n := rfl

theorem fmt02d_eq_zeroPad2 (n : Nat) : fmt02d n = zeroPad2 n := by
  unfold fmt02d zeroPad2
  have hd : decimal n = Nat.toDigits 10 n := rfl
  rw [hd]
  by_cases h : n < 10
  · have h0 : n / 10 = 0 := Nat.div_eq_of_lt h
    have h1 : Nat.toDigits 10 n = [Nat.digitChar (n % 10)] := by
      simp [Nat.toDigits, Nat.toDigitsCore, h0]
    rw [if_pos h, h1]
    rfl
  · have h0 : n / 10 ≠ 0 := by omega
    obtain ⟨m, hm⟩ : ∃ m, n = m + 1 := ⟨n - 1, by omega⟩
    have h1 : 2 ≤ (Nat.toDigits 10 n).length := by
      simp only [Nat.toDigits, Nat.toDigitsCore, h0, if_false]
      rw [hm]
      simp only [Nat.toDigitsCore]
      split
      · simp
      · exact Nat.le_trans (by simp) (toDigitsCore_length _ _ _)
    rw [if_neg h, Nat.sub_eq_zero_of_le h1]
    rfl

theorem formatted_eq (zone : Int → Int) (msg : Message) :
    formatted zone msg ++ ['\n'] = transcriptBlock zone msg := by
  simp [formatted, transcriptBlock, fmt02d_eq_zeroPad2, fmtD_eq_decimal]

theorem transcriptLoop (zone : Int → Int) (messages : List Message) (buf : Str) :
    messages.foldl (fun buf msg => (buf ++ formatted zone msg) ++ ['\n']) buf
      = buf ++ (messages.map (transcriptBlock zone)).flatten := by
  induction messages generalizing buf with
  | nil => simp
  | cons msg rest ih =>
    rw [List.foldl_cons, ih, List.map_cons, List.flatten_cons, ← formatted_eq]
    simp [List.append_assoc]

/-! ## Failures -/

theorem readRecords_fail (parseTs : Str → Option Int) (users : UsersMap)
    (rs : List InputMessage) (r : InputMessage) (hr : r ∈ rs) (hp : passes r)
    (hts : parseTs r.Timestamp = none) (acc : List Message) :
    ∃ err, readRecords parseTs users rs acc = .error err := by
  induction rs generalizing acc with
  | nil => simp at hr
  | cons x rest ih =>
    rcases List.mem_cons.mp hr with h | h
    · subst h
      exact ⟨.invalidTimestamp, by rw [readRecords, processRecord_fail parseTs users r hp hts]⟩
    · rw [readRecords]
      cases processRecord parseTs users x with
      | skip => exact ih h acc
      | fail err => exact ⟨err, rfl⟩
      | emit m => exact ih h _

theorem readDays_fail (parseTs : Str → Option Int) (users : UsersMap)
    (days : List (FileRead (List InputMessage))) (rs : List InputMessage) (r : InputMessage)
    (hday : .decoded rs ∈ days) (hr : r ∈ rs) (hp : passes r)
    (hts : parseTs r.Timestamp = none) (acc : List Message) :
    ∃ err, readDays parseTs users days acc = .error err := by
  induction days generalizing acc with
  | nil => simp at hday
  | cons day rest ih =>
    rcases List.mem_cons.mp hday with h | h
    · subst h
      obtain ⟨err, he⟩ := readRecords_fail parseTs users rs r hr hp hts acc
      exact ⟨err, by rw [readDays, he]⟩
    · cases day with
      | unreadable => exact ⟨.openFile, rfl⟩
      | malformed => exact ⟨.unmarshal, rfl⟩
      | decoded rs2 =>
        rw [readDays]
        cases readRecords parseTs users rs2 acc with
        | error err => exact ⟨err, rfl⟩
        | ok acc2 => exact ih h acc2

theorem loadChannels_fail (parseTs : Str → Option Int) (usersMap : UsersMap)
    (channels : List DirEntry) (c : DirEntry) (hc : c ∈ channels) (hdir : c.IsDir = true)
    (hfail : ∃ err, readChannel parseTs usersMap c.days = .error err)
    (channelsMap : List (Str × List Message)) :
    ∃ err, loadChannels parseTs usersMap channels channelsMap = .error err := by
  induction channels generalizing channelsMap with
  | nil => simp at hc
  | cons x rest ih =>
    rw [loadChannels]
    rcases List.mem_cons.mp hc with h | h
    · subst h
      obtain ⟨err, he⟩ := hfail
      exact ⟨err, by simp [hdir, he]⟩
    · cases hx : x.IsDir with
      | false => simpa using ih h channelsMap
      | true =>
        cases hread : readChannel parseTs usersMap x.days with
        | error err => exact ⟨err, by simp⟩
        | ok messages => simpa using ih h _

/-! ## Texts without a tag, texts with two channel tags -/

theorem rewriteMentions_no_lt (users : UsersMap) (text : Str) (h : '<' ∉ text) :
    rewriteMentions users text = text := by
  have hre : mentionRe = .lit '<' :: mentionRe.tail := rfl
  rw [rewriteMentions, hre, FindAll_none '<' _ 999 text h]
  rfl

theorem normalizeText_no_lt (users : UsersMap) (text : Str) (h : '<' ∉ text) :
    normalizeText users text = text := by
  rw [normalizeText, rewriteMentions_no_lt users text h, stripSubteams_no_lt text h,
    rewriteChannels_no_lt text h]

/-- The mention pattern finds nothing in a text whose two `<` are both
followed by `#`. -/
theorem rewriteMentions_two_tags (users : UsersMap) (P Q : Str) (hP : '<' ∉ P) (hQ : '<' ∉ Q) :
    rewriteMentions users ('<' :: '#' :: (P ++ '<' :: '#' :: Q))
      = '<' :: '#' :: (P ++ '<' :: '#' :: Q) := by
  have hre : mentionRe = .lit '<' :: mentionRe.tail := rfl
  have hm : ∀ t, matchHere mentionRe ('<' :: '#' :: t) 0 (0, 0) = none := by
    intro t
    rw [mentionRe, matchHere_lit_eq, matchHere_open, matchHere_lit_ne _ _ _ _ _ _ (by decide)]
  have hQ2 : '<' ∉ '#' :: Q := by
    simp only [List.mem_cons, not_or]
    exact ⟨by decide, hQ⟩
  have hP2 : '<' ∉ '#' :: P := by
    simp only [List.mem_cons, not_or]
    exact ⟨by decide, hP⟩
  have h2 : findFirst mentionRe ('<' :: '#' :: Q) = none :=
    findFirst_cons_none _ _ _ (hm Q) (by rw [hre]; exact findFirst_none '<' _ _ hQ2)
  have h1 : findFirst mentionRe ('#' :: (P ++ '<' :: '#' :: Q)) = none := by
    rw [← List.cons_append, hre, findFirst_skip '<' _ _ _ hP2, ← hre]
    exact h2
  rw [rewriteMentions, FindAll_of_none _ _ _ (findFirst_cons_none _ _ _ (hm _) h1)]
  rfl

/-- The subteam pattern finds nothing in such a text either. -/
theorem stripSubteams_two_tags (P Q : Str) (hP : '<' ∉ P) (hQ : '<' ∉ Q) :
    stripSubteams ('<' :: '#' :: (P ++ '<' :: '#' :: Q))
      = '<' :: '#' :: (P ++ '<' :: '#' :: Q) := by
  have hre : subteamRe = .lit '<' :: subteamRe.tail := rfl
  have hm : ∀ t, matchHere subteamRe ('<' :: '#' :: t) 0 (0, 0) = none := by
    intro t
    rw [subteamRe, matchHere_lit_eq, matchHere_lit_ne _ _ _ _ _ _ (by decide)]
  have hQ2 : '<' ∉ '#' :: Q := by
    simp only [List.mem_cons, not_or]
    exact ⟨by decide, hQ⟩
  have hP2 : '<' ∉ '#' :: P := by
    simp only [List.mem_cons, not_or]
    exact ⟨by decide, hP⟩
  have h2 : findFirst subteamRe ('<' :: '#' :: Q) = none :=
    findFirst_cons_none _ _ _ (hm Q) (by rw [hre]; exact findFirst_none '<' _ _ hQ2)
  have h1 : findFirst subteamRe ('#' :: (P ++ '<' :: '#' :: Q)) = none := by
    rw [← List.cons_append, hre, findFirst_skip '<' _ _ _ hP2, ← hre]
    exact h2
  rw [stripSubteams, FindAll_of_none _ _ _ (findFirst_cons_none _ _ _ (hm _) h1)]
  rfl

/-! ## Texts in which a pattern cannot start -/

theorem findFirst_none_of_suffixes (re : List Atom) (s : Str)
    (h : ∀ a b, s = a ++ b → matchHere re b 0 (0, 0) = none) : findFirst re s = none := by
  induction s with
  | nil =>
    rw [findFirst, h [] [] rfl]
    rfl
  | cons x xs ih =>
    exact findFirst_cons_none re x xs (h [] (x :: xs) rfl)
      (ih (fun a b hab => h (x :: a) b (by rw [hab]; rfl)))

theorem matchHere_lits_none (lits : List Char) (re : List Atom) (s : Str) (pos : Nat)
    (cap : Nat × Nat) (h : ¬ lits <+: s) :
    matchHere (lits.map .lit ++ re) s pos cap = none := by
  induction lits generalizing s pos with
  | nil => exact absurd List.nil_prefix h
  | cons c cs ih =>
    cases s with
    | nil => exact matchHere_lit_nil c _ pos cap
    | cons x xs =>
      by_cases hx : x = c
      · subst hx
        rw [List.map_cons, List.cons_append, matchHere_lit_eq]
        exact ih xs (pos + 1) (fun hp => h (List.cons_prefix_cons.mpr ⟨rfl, hp⟩))
      · exact matchHere_lit_ne c x _ xs pos cap hx

theorem findFirst_none_of_absent (lits : List Char) (re : List Atom) (s : Str)
    (h : ¬ lits <:+: s) : findFirst (lits.map .lit ++ re) s = none := by
  refine findFirst_none_of_suffixes _ s (fun a b hab => matchHere_lits_none lits re b 0 (0, 0) ?_)
  intro hp
  obtain ⟨t, ht⟩ := hp
  exact h ⟨a, t, by rw [hab, ← ht, List.append_assoc]⟩

theorem rewriteMentions_no_at (users : UsersMap) (text : Str) (h : '@' ∉ text) :
    rewriteMentions users text = text := by
  have hf : findFirst mentionRe text = none := by
    refine findFirst_none_of_suffixes _ text (fun a b hab => ?_)
    cases b with
    | nil => exact matchHere_lit_nil _ _ _ _
    | cons x xs =>
      by_cases hx : x = '<'
      · subst hx
        rw [mentionRe, matchHere_lit_eq, matchHere_open]
        cases xs with
        | nil => exact matchHere_lit_nil _ _ _ _
        | cons y ys =>
          refine matchHere_lit_ne _ _ _ _ _ _ (fun hy => h ?_)
          rw [hab, hy]
          simp
      · exact matchHere_lit_ne _ _ _ _ _ _ hx
  rw [rewriteMentions, FindAll_of_none _ _ _ hf]
  rfl

theorem stripSubteams_absent (text : Str) (h : ¬ "<!subteam".toList <:+: text) :
    stripSubteams text = text := by
  have hre : subteamRe = "<!subteam".toList.map .lit ++
      [.starNot ['@'], .openGroup, .starNot ['>'], .closeGroup, .lit '>'] := rfl
  rw [stripSubteams, hre, FindAll_of_none _ _ _ (findFirst_none_of_absent _ _ _ h)]
  rfl

theorem rewriteChannels_absent (text : Str) (h : ¬ "<#".toList <:+: text) :
    rewriteChannels text = text := by
  have hre : channelRe = "<#".toList.map .lit ++
      [.starNot ['\n'], .lit '|', .openGroup, .starNot ['\n'], .closeGroup, .lit '>'] := rfl
  rw [rewriteChannels, hre, FindAll_of_none _ _ _ (findFirst_none_of_absent _ _ _ h)]
  rfl

/-- The subteam pattern on a tag without `@`: the first star runs to the end
and gives back the last `>`, the group is empty. -/
theorem matchHere_subteam_no_at (Q : Str) (hQ : '@' ∉ Q) :
    matchHere subteamRe ("<!subteam".toList ++ Q ++ ['>']) 0 (0, 0)
      = some (Q.length + 10, Q.length + 9, Q.length + 9) := by
  have hrun : ∀ c ∈ Q, c ∉ ['@'] := by
    intro c hc hmem
    rw [List.mem_singleton] at hmem
    exact hQ (hmem ▸ hc)
  have h1 : starLoop ['@'] (matchHere [.openGroup, .starNot ['>'], .closeGroup, .lit '>'])
      (Q ++ ['>']) 9 (0, 0) = some (9 + Q.length + 1, 9 + Q.length, 9 + Q.length) := by
    refine starLoop_run _ _ _ _ _ _ _ hrun ?_
    rw [starLoop_cons _ _ _ _ _ _ (by decide), starLoop_nil, matchHere_open, matchHere_star,
      starLoop_nil, matchHere_close, matchHere_lit_nil]
    simp only [Option.orElse]
    rw [matchHere_open, matchHere_star, starLoop_stop _ _ _ _ _ _ (by simp), matchHere_close,
      matchHere_lit_eq, matchHere_nil]
  have e : "<!subteam".toList ++ Q ++ ['>']
      = '<' :: '!' :: 's' :: 'u' :: 'b' :: 't' :: 'e' :: 'a' :: 'm' :: (Q ++ ['>']) := by
    simp
  rw [e, subteamRe]
  iterate 9 rw [matchHere_lit_eq]
  rw [matchHere_star]
  refine h1.trans ?_
  simp only [Option.some.injEq, Prod.mk.injEq]
  exact ⟨by omega, by omega, by omega⟩

theorem stripSubteams_no_at (Q : Str) (hQ : '@' ∉ Q) :
    stripSubteams ("<!subteam".toList ++ Q ++ ['>']) = [] := by
  have hne : "<!subteam".toList ++ Q ++ ['>'] ≠ [] := by simp
  have hm := matchHere_subteam_no_at Q hQ
  have hlen : ("<!subteam".toList ++ Q ++ ['>']).length = Q.length + 10 := by
    have h9 : "<!subteam".toList.length = 9 := rfl
    simp only [List.length_append, List.length_cons, List.length_nil, h9]
    omega
  rw [← hlen] at hm
  have hf := findFirst_here subteamRe _ [] _ _ hne (by rw [List.append_nil]; exact hm)
  rw [List.append_nil, Nat.sub_self, List.take_zero] at hf
  have hre : subteamRe = .lit '<' :: subteamRe.tail := rfl
  rw [hre] at hf
  rw [stripSubteams, hre, show (999 : Nat) = 998 + 1 from rfl, FindAll_single '<' _ 998 _ _ hf]
  simp only [List.foldl_cons, List.foldl_nil]
  exact Replace_whole _ _ hne

/-! ## The lines of the transcript -/

theorem splitLines_line (l rest : Str) (hl : '\n' ∉ l) :
    splitLines (l ++ '\n' :: rest) = (l :: (splitLines rest).1, (splitLines rest).2) := by
  induction l with
  | nil => simp [splitLines]
  | cons c cs ih =>
    have hc : c ≠ '\n' := fun h => hl (h ▸ List.mem_cons_self _ _)
    have hcs : '\n' ∉ cs := fun h => hl (List.mem_cons_of_mem _ h)
    rw [List.cons_append, splitLines, if_neg hc, ih hcs]

theorem digitChar_ne_newline (n : Nat) : Nat.digitChar (n % 10) ≠ '\n' := by
  have h : n % 10 < 10 := Nat.mod_lt _ (by decide)
  generalize n % 10 = d at h
  interval_cases d <;> decide

theorem toDigitsCore_no_newline (f n : Nat) (ds : List Char) (hds : '\n' ∉ ds) :
    '\n' ∉ Nat.toDigitsCore 10 f n ds := by
  induction f generalizing n ds with
  | zero => simpa [Nat.toDigitsCore] using hds
  | succ f ih =>
    have hd : '\n' ∉ Nat.digitChar (n % 10) :: ds := by
      simp only [List.mem_cons, not_or]
      exact ⟨fun h => digitChar_ne_newline _ h.symm, hds⟩
    simp only [Nat.toDigitsCore]
    split
    · exact hd
    · exact ih _ _ hd

theorem decimal_no_newline (n : Nat) : '\n' ∉ decimal n :=
  toDigitsCore_no_newline _ _ [] (by simp)

theorem zeroPad2_no_newline (n : Nat) : '\n' ∉ zeroPad2 n := by
  unfold zeroPad2
  split
  · simp only [List.mem_cons, not_or]
    exact ⟨by decide, decimal_no_newline n⟩
  · exact decimal_no_newline n

theorem transcriptLine_no_newline (zone : Int → Int) (msg : Message)
    (h : '\n' ∉ msg.User ∧ '\n' ∉ msg.Text) : '\n' ∉ transcriptLine zone msg := by
  have h1 := zeroPad2_no_newline (Month zone msg.Time)
  have h2 := decimal_no_newline (Day zone msg.Time)
  have h3 := zeroPad2_no_newline (Clock zone msg.Time).1
  have h4 := zeroPad2_no_newline (Clock zone msg.Time).2
  simp [transcriptLine, h1, h2, h3, h4, h.1, h.2]

theorem transcriptBlock_eq (zone : Int → Int) (msg : Message) :
    transcriptBlock zone msg = transcriptLine zone msg ++ '\n' :: '\n' :: [] := by
  simp [transcriptBlock, transcriptLine]

theorem splitLines_blocks (zone : Int → Int) (messages : List Message)
    (h : ∀ m ∈ messages, '\n' ∉ m.User ∧ '\n' ∉ m.Text) :
    splitLines (messages.map (transcriptBlock zone)).flatten
      = (messages.flatMap fun m => [transcriptLine zone m, []], []) := by
  induction messages with
  | nil => rfl
  | cons m rest ih =>
    have hm := transcriptLine_no_newline zone m (h m (List.mem_cons_self _ _))
    have hrest := ih (fun x hx => h x (List.mem_cons_of_mem _ hx))
    rw [List.map_cons, List.flatten_cons, transcriptBlock_eq, List.append_assoc,
      List.cons_append, splitLines_line _ _ hm, List.cons_append, List.nil_append]
    have e : splitLines ('\n' :: (List.map (transcriptBlock zone) rest).flatten)
        = ([] :: (splitLines (List.map (transcriptBlock zone) rest).flatten).1,
            (splitLines (List.map (transcriptBlock zone) rest).flatten).2) := by
      rw [splitLines, if_pos rfl]
    rw [e, hrest]
    rfl

theorem twoLines_length (zone : Int → Int) (messages : List Message) :
    (messages.flatMap fun m => [transcriptLine zone m, []]).length = 2 * messages.length := by
  induction messages with
  | nil => rfl
  | cons m rest ih =>
    rw [List.flatMap_cons, List.length_append, ih]
    simp only [List.length_cons, List.length_nil]
    omega

theorem blankLines (zone : Int → Int) (messages : List Message) (i : Nat)
    (hi : i < messages.length) :
    (messages.flatMap fun m => [transcriptLine zone m, []])[2 * i + 1]? = some [] := by
  induction messages generalizing i with
  | nil => simp at hi
  | cons m rest ih =>
    cases i with
    | zero => simp [List.flatMap_cons]
    | succ i =>
      have h := ih i (by simpa using hi)
      rw [List.flatMap_cons, show 2 * (i + 1) + 1 = (2 * i + 1) + 1 + 1 from by omega]
      simpa using h

/-! ## The timestamp -/

theorem bitLengthAux_zero (f : Nat) : bitLengthAux f 0 = 0 := by
  cases f <;> simp [bitLengthAux]

theorem bitLengthAux_spec (f n : Nat) (hf : n ≤ f) (hn : n ≠ 0) :
    ∃ k, bitLengthAux f n = k + 1 ∧ 2 ^ k ≤ n ∧ n < 2 ^ (k + 1) := by
  induction f generalizing n with
  | zero => omega
  | succ f ih =>
    rw [bitLengthAux, if_neg hn]
    by_cases h2 : n / 2 = 0
    · refine ⟨0, by rw [h2, bitLengthAux_zero], ?_, ?_⟩ <;> simp <;> omega
    · obtain ⟨k, hk, hlo, hhi⟩ := ih (n / 2) (by omega) h2
      refine ⟨k + 1, by rw [hk], ?_, ?_⟩
      · rw [pow_succ]; omega
      · rw [pow_succ] at hhi ⊢; omega

theorem bitLength_spec (n : Nat) (hn : n ≠ 0) :
    ∃ k, bitLength n = k + 1 ∧ 2 ^ k ≤ n ∧ n < 2 ^ (k + 1) :=
  bitLengthAux_spec n n (Nat.le_refl _) hn

theorem roundHalfEven_ge (num den : Nat) : num / den ≤ roundHalfEven num den := by
  unfold roundHalfEven
  simp only
  split_ifs <;> omega

theorem roundHalfEven_le (num den : Nat) : roundHalfEven num den ≤ num / den + 1 := by
  unfold roundHalfEven
  simp only
  split_ifs <;> omega

theorem roundHalfEven_up (num den : Nat) (h : roundHalfEven num den ≠ num / den) :
    den ≤ 2 * (num % den) := by
  unfold roundHalfEven at h
  simp only at h
  split_ifs at h <;> omega

/-- Rounding `N / D` to `t` binary places and dropping them again gives the
integer part of `N / D`, as long as `D < 2 ^ (t + 1)`. -/
theorem roundHalfEven_trunc (N D t : Nat) (hD : 0 < D) (ht : D < 2 ^ (t + 1)) :
    roundHalfEven (N * 2 ^ t) D / 2 ^ t = N / D := by
  have hP : 0 < 2 ^ t := Nat.two_pow_pos t
  generalize hPdef : 2 ^ t = P at hP ht
  have ht2 : D < 2 * P := by rw [pow_succ, hPdef] at ht; omega
  -- N = n * D + f
  have hN : D * (N / D) + N % D = N := Nat.div_add_mod N D
  have hf : N % D < D := Nat.mod_lt _ hD
  generalize N / D = n at hN ⊢
  generalize N % D = f at hN hf
  -- X = m0 * D + r
  have hX : D * (N * P / D) + N * P % D = N * P := Nat.div_add_mod (N * P) D
  have hr : N * P % D < D := Nat.mod_lt _ hD
  have hge := roundHalfEven_ge (N * P) D
  have hle := roundHalfEven_le (N * P) D
  have hup := roundHalfEven_up (N * P) D
  generalize roundHalfEven (N * P) D = m at hge hle hup
  generalize N * P / D = m0 at hX hge hle hup
  generalize hrdef : N * P % D = r at hX hr hup
  subst hN
  have hlow : n * P ≤ m0 := by
    by_contra hc
    have : m0 + 1 ≤ n * P := by omega
    have : D * (m0 + 1) ≤ D * (n * P) := Nat.mul_le_mul_left _ this
    nlinarith
  have hhigh : m0 + 1 ≤ (n + 1) * P := by
    by_contra hc
    have : (n + 1) * P ≤ m0 := by omega
    have : D * ((n + 1) * P) ≤ D * m0 := Nat.mul_le_mul_left _ this
    have : f * P < D * P := Nat.mul_lt_mul_of_pos_right hf hP
    nlinarith
  have hm : m < (n + 1) * P := by
    by_contra hc
    have hm1 : m = m0 + 1 := by omega
    have hm2 : m0 + 1 = (n + 1) * P := by omega
    have h2r := hup (by omega)
    have h3 : D * (m0 + 1) = D * ((n + 1) * P) := by rw [hm2]
    have h4 : (f + 1) * P ≤ D * P := Nat.mul_le_mul_right _ hf
    nlinarith
  exact Nat.div_eq_of_lt_le (by omega) (by omega)

/-- The exponent found for a value of at least 1 brackets it. -/
theorem floorLog2_ge_one (N D : Nat) (hD : 0 < D) (hDN : D ≤ N) :
    ∃ k : Nat, floorLog2 N D = (k : Int) ∧ 2 ^ k * D ≤ N ∧ N < 2 ^ (k + 1) * D := by
  have hn : N / D ≠ 0 := Nat.pos_iff_ne_zero.mp (Nat.div_pos hDN hD)
  obtain ⟨k, hk, hlo, hhi⟩ := bitLength_spec (N / D) hn
  refine ⟨k, ?_, (Nat.le_div_iff_mul_le hD).mp hlo, (Nat.div_lt_iff_lt_mul hD).mp hhi⟩
  unfold floorLog2
  rw [if_pos hDN, hk]
  push_cast
  omega

/-- The exponent found for a positive value below 1 brackets it. -/
theorem floorLog2_lt_one (N D : Nat) (hN : 0 < N) (hND : N < D) :
    ∃ j : Nat, floorLog2 N D = -((j : Int) + 1) ∧ 2 ^ j * N < D ∧ D ≤ 2 ^ (j + 1) * N := by
  have hq : (D - 1) / N ≠ 0 := by
    have : 0 < (D - 1) / N := Nat.div_pos (by omega) hN
    omega
  obtain ⟨j, hj, hlo, hhi⟩ := bitLength_spec ((D - 1) / N) hq
  have h1 := (Nat.le_div_iff_mul_le hN).mp hlo
  have h2 := (Nat.div_lt_iff_lt_mul hN).mp hhi
  refine ⟨j, ?_, by omega, by omega⟩
  unfold floorLog2
  rw [if_neg (by omega), hj]
  push_cast
  rfl

theorem float64Bound_gt : 2 ^ 63 < float64Bound := by
  unfold float64Bound
  have h1 : 2 ^ 63 < 2 ^ 256 := Nat.pow_lt_pow_right (by decide) (by decide)
  have h2 : 2 ^ 256 ≤ (2 ^ 256) ^ 4 := Nat.le_self_pow (by decide) _
  exact Nat.lt_of_lt_of_le h1 h2

theorem roundHalfEven_one (N : Nat) : roundHalfEven N 1 = N := by
  unfold roundHalfEven
  simp [Nat.mod_one]

theorem float64Seconds_exact (big : Nat → Int) (N D : Nat) (hD : 0 < D) (hN : N < 2 ^ 53) :
    float64Seconds big N D = some ((N / D : Nat) : Int) := by
  unfold float64Seconds
  by_cases hN0 : N = 0
  · simp [hN0]
  rw [if_neg hN0]
  by_cases hDN : D ≤ N
  · -- the value is at least 1
    obtain ⟨k, hb, hkD, _⟩ := floorLog2_ge_one N D hD hDN
    have hk53 : 2 ^ k * D < 2 ^ 53 := Nat.lt_of_le_of_lt hkD hN
    have hk52 : k < 53 := by
      have : 2 ^ k < 2 ^ 53 := Nat.lt_of_le_of_lt (Nat.le_mul_of_pos_right _ hD) hk53
      exact (Nat.pow_lt_pow_iff_right (by decide)).mp this
    have he : max (floorLog2 N D - 52) (-1074) = (k : Int) - 52 := by
      rw [hb]; omega
    simp only [he]
    by_cases hk' : k = 52
    · have he0 : (k : Int) - 52 = 0 := by omega
      have hD1 : D = 1 := by
        rw [hk'] at hk53
        have : 2 ^ 52 * D < 2 ^ 52 * 2 := by rw [← pow_succ]; exact hk53
        have := Nat.lt_of_mul_lt_mul_left this
        omega
      have hb2 := float64Bound_gt
      rw [he0, if_pos (le_refl _)]
      simp only [Int.toNat_zero, pow_zero, Nat.mul_one, hD1, roundHalfEven_one, Nat.div_one]
      rw [if_neg (by omega), if_pos (by omega)]
    · have hneg : ¬ (0 : Int) ≤ (k : Int) - 52 := by omega
      rw [if_neg hneg]
      have ht : (-((k : Int) - 52)).toNat = 52 - k := by omega
      rw [ht]
      have hDlt : D < 2 ^ (52 - k + 1) := by
        have e : 2 ^ 53 = 2 ^ k * 2 ^ (52 - k + 1) := by
          rw [← pow_add]; congr 1; omega
        rw [e] at hk53
        exact Nat.lt_of_mul_lt_mul_left hk53
      rw [roundHalfEven_trunc N D (52 - k) hD hDlt]
  · -- the value is below 1
    have hND : N < D := Nat.lt_of_not_le hDN
    obtain ⟨j, hb, hlo2, hhi2⟩ := floorLog2_lt_one N D (Nat.pos_of_ne_zero hN0) hND
    have h0 : N / D = 0 := Nat.div_eq_of_lt hND
    by_cases hj' : j + 53 ≤ 1074
    · have he : max (floorLog2 N D - 52) (-1074) = -((j : Int) + 53) := by
        rw [hb]; omega
      simp only [he]
      have hneg : ¬ (0 : Int) ≤ -((j : Int) + 53) := by omega
      rw [if_neg hneg]
      have ht : (-(-((j : Int) + 53))).toNat = j + 53 := by omega
      rw [ht]
      have hDlt : D < 2 ^ (j + 53 + 1) := by
        have e : 2 ^ (j + 53 + 1) = 2 ^ (j + 1) * 2 ^ 53 := by
          rw [← pow_add]
        rw [e]
        exact Nat.lt_of_le_of_lt hhi2 (Nat.mul_lt_mul_of_pos_left hN (Nat.two_pow_pos _))
      rw [roundHalfEven_trunc N D (j + 53) hD hDlt]
    · have he : max (floorLog2 N D - 52) (-1074) = -1074 := by
        rw [hb]; omega
      simp only [he]
      rw [if_neg (by omega)]
      obtain ⟨T, hT⟩ : ∃ T : Nat, T = 1022 := ⟨1022, rfl⟩
      have ht : (-(-1074 : Int)).toNat = T + 52 := by omega
      rw [ht, h0]
      have hpow : 2 ^ T * N < D := by
        have : 2 ^ T ≤ 2 ^ j := Nat.pow_le_pow_right (by decide) (by omega)
        exact Nat.lt_of_le_of_lt (Nat.mul_le_mul_right _ this) hlo2
      have hm0 : N * 2 ^ (T + 52) / D < 2 ^ 52 := by
        rw [Nat.div_lt_iff_lt_mul hD, pow_add]
        calc N * (2 ^ T * 2 ^ 52) = (2 ^ T * N) * 2 ^ 52 := by ring
          _ < D * 2 ^ 52 := Nat.mul_lt_mul_of_pos_right hpow (Nat.two_pow_pos _)
          _ = 2 ^ 52 * D := Nat.mul_comm _ _
      have hle := roundHalfEven_le (N * 2 ^ (T + 52)) D
      have hlt : roundHalfEven (N * 2 ^ (T + 52)) D < 2 ^ (T + 52) := by
        have : 2 ^ 52 < 2 ^ (T + 52) := Nat.pow_lt_pow_right (by decide) (by omega)
        omega
      rw [Nat.div_eq_of_lt hlt]

theorem digit_le_nine (c : Char) (h : c.isDigit = true) : c.toNat - '0'.toNat ≤ 9 := by
  have h57 : c.toNat ≤ 57 := by
    simp only [Char.isDigit, Bool.and_eq_true, decide_eq_true_eq] at h
    exact h.2
  have h0 : '0'.toNat = 48 := rfl
  omega

theorem digitsLoop (a : Nat) (f : Str) :
    f.foldl (fun n c => 10 * n + (c.toNat - '0'.toNat)) a
      = a * 10 ^ f.length + f.foldl (fun n c => 10 * n + (c.toNat - '0'.toNat)) 0 := by
  induction f generalizing a with
  | nil => simp
  | cons c cs ih =>
    rw [List.foldl_cons, List.foldl_cons, ih, ih (10 * 0 + (c.toNat - '0'.toNat)),
      List.length_cons, pow_succ]
    ring

theorem digitsValue_append (w f : Str) :
    digitsValue (w ++ f) = digitsValue w * 10 ^ f.length + digitsValue f := by
  unfold digitsValue
  rw [List.foldl_append, digitsLoop]

theorem digitsValue_lt (f : Str) (h : ∀ c ∈ f, c.isDigit = true) :
    digitsValue f < 10 ^ f.length := by
  induction f with
  | nil => simp [digitsValue]
  | cons c cs ih =>
    have hc := digit_le_nine c (h c (List.mem_cons_self _ _))
    have hcs := ih (fun x hx => h x (List.mem_cons_of_mem _ hx))
    unfold digitsValue at hcs ⊢
    rw [List.foldl_cons, digitsLoop, List.length_cons, pow_succ]
    have hp : 0 < 10 ^ cs.length := Nat.pow_pos (by decide)
    nlinarith

theorem plainNumeral_frac (s whole frac : Str) (h : plainNumeral s = some (whole, frac)) :
    ∀ c ∈ frac, c.isDigit = true := by
  unfold plainNumeral at h
  simp only at h
  split_ifs at h with h1 h2 h3
  · cases h; simp
  · cases h
    exact fun c hc => List.all_eq_true.mp h3.2 c hc

theorem numeral_integer_part (s whole frac : Str) (h : plainNumeral s = some (whole, frac)) :
    digitsValue (whole ++ frac) / 10 ^ frac.length = digitsValue whole := by
  have hlt := digitsValue_lt frac (plainNumeral_frac s whole frac h)
  have hp : 0 < 10 ^ frac.length := Nat.pow_pos (by decide)
  rw [digitsValue_append, Nat.add_comm, Nat.add_mul_div_right _ _ hp, Nat.div_eq_of_lt hlt,
    Nat.zero_add]

theorem numeralSeconds_reads (big : Nat → Int) : readsNumerals big (numeralSeconds big) := by
  intro s whole frac h
  rw [numeralSeconds, h]

/-! ## The claims -/

/-- C1: for every record and every user table, the record loop skips the
record (no message appended, no error, the loop goes on with the next record)
exactly when its type is not "message", or its subtype is "channel_join", or
its parent_user_id is non-empty; a record with subtype "channel_join" is
skipped whatever its other fields hold, its timestamp string included. -/
theorem C1_skip_exactly_when_excluded (parseTs : Str → Option Int) (users : UsersMap)
    (r : InputMessage) :
    (processRecord parseTs users r = .skip ↔
      (r.Type_ ≠ "message".toList ∨ r.SubType = "channel_join".toList ∨
        r.ParentUserId ≠ [])) ∧
    (processRecord parseTs users r = .skip →
      ∀ rest messages, readRecords parseTs users (r :: rest) messages
        = readRecords parseTs users rest messages) ∧
    (r.SubType = "channel_join".toList → processRecord parseTs users r = .skip) := by
  refine ⟨⟨?_, ?_⟩, ?_, ?_⟩
  · intro h
    by_contra hc
    have hp : passes r := by
      simp only [not_or, ne_eq, not_not] at hc
      exact ⟨hc.1, hc.2.1, hc.2.2⟩
    cases hts : parseTs r.Timestamp with
    | none => rw [processRecord_fail parseTs users r hp hts] at h; cases h
    | some ts => rw [processRecord_emit parseTs users r ts hp hts] at h; cases h
  · intro h
    exact processRecord_skip parseTs users r (fun hp => by
      rcases h with h | h | h
      · exact h hp.1
      · exact hp.2.1 h
      · exact h hp.2.2)
  · intro h rest messages
    rw [readRecords, h]
  · intro h
    exact processRecord_skip parseTs users r (fun hp => hp.2.1 h)

/-- C2: for a user table whose names contain no `<`, and a text made of at
most 999 mention tokens `<@ID>` (each ID free of `<`, `>`, `@`; tokens may
repeat) interleaved with segments free of `<`, a record that passes the filter
and has a well-formed timestamp yields the message whose text is the same text
with every token `<@ID>` replaced by `@` and the name the table gives for ID
(empty when ID is absent), the segments unchanged. -/
theorem C2_mentions_resolved (parseTs : Str → Option Int) (users : UsersMap)
    (seg0 : Str) (items : List (Str × Str)) (r : InputMessage) (ts : Int)
    (hnames : ∀ k u, users k = some u → '<' ∉ u.Name)
    (hcount : items.length ≤ 999)
    (hids : ∀ it ∈ items, '<' ∉ it.1 ∧ '>' ∉ it.1 ∧ '@' ∉ it.1)
    (hseg0 : '<' ∉ seg0)
    (hsegs : ∀ it ∈ items, '<' ∉ it.2)
    (hpass : passes r)
    (hts : parseTs r.Timestamp = some ts)
    (htext : r.Text = mentionText seg0 items) :
    processRecord parseTs users r
      = .emit ⟨(users.index r.UserId).Name, resolvedText users seg0 items, ts⟩ := by
  rw [processRecord_emit parseTs users r ts hpass hts, htext,
    normalizeText_mentionText users seg0 items hcount hseg0
      (fun it hit => ⟨hids it hit, hsegs it hit, index_name_no_lt users hnames it.1⟩)]

/-- C2, the example of the specification: `<@U1> hi <@U2>` with
{U1→Alice, U2→Bob} gives `@Alice hi @Bob`. -/
theorem C2_mentions_resolved_witness :
    processRecord decimalSeconds
        (buildUsers [⟨"U1".toList, [], ⟨"Alice".toList, []⟩⟩, ⟨"U2".toList, [], ⟨[], "Bob".toList⟩⟩])
        ⟨"U2".toList, "1609459200.000100".toList, "message".toList, [],
          "<@U1> hi <@U2>".toList, []⟩
      = .emit ⟨"Bob".toList, "@Alice hi @Bob".toList, 1609459200⟩ :=
  C2_mentions_resolved decimalSeconds
    (buildUsers [⟨"U1".toList, [], ⟨"Alice".toList, []⟩⟩, ⟨"U2".toList, [], ⟨[], "Bob".toList⟩⟩])
    [] [("U1".toList, " hi ".toList), ("U2".toList, [])]
    ⟨"U2".toList, "1609459200.000100".toList, "message".toList, [], "<@U1> hi <@U2>".toList, []⟩
    1609459200
    (by
      intro k u h
      simp only [buildUsers, List.foldl, UsersMap.set, emptyUsers] at h
      split at h
      · cases h; decide
      · split at h
        · cases h; decide
        · cases h)
    (by decide) (by decide) (by decide) (by decide) (by decide) (by decide) (by decide)

/-- C3: a lookup miss is never an error and resolves to the empty string: a
record that passes the filter and has a well-formed timestamp, and whose
author is absent from the table, still yields a message, with the empty user;
and for an ID free of `<`, `>`, `@` that is absent from the table, the text
`<@ID>` is normalized to exactly `@`. -/
theorem C3_lookup_miss_is_empty (parseTs : Str → Option Int) (users : UsersMap) :
    (∀ (r : InputMessage) (ts : Int), passes r → parseTs r.Timestamp = some ts →
      users r.UserId = none →
      processRecord parseTs users r = .emit ⟨[], normalizeText users r.Text, ts⟩) ∧
    (∀ id : Str, '<' ∉ id → '>' ∉ id → '@' ∉ id → users id = none →
      normalizeText users (token id) = ['@']) := by
  constructor
  · intro r ts hpass hts hmiss
    rw [processRecord_emit parseTs users r ts hpass hts]
    simp [UsersMap.index, hmiss]
  · intro id h1 h2 h3 hmiss
    have hname : (users.index id).Name = [] := by simp [UsersMap.index, hmiss]
    have h := normalizeText_mentionText users [] [(id, [])] (by simp) (by simp)
      (fun it hit => by
        simp only [List.mem_singleton] at hit
        subst hit
        exact ⟨⟨h1, h2, h3⟩, by simp, by simp [hname]⟩)
    simpa [mentionText, resolvedText, hname] using h

/-- C3 on the example of the specification: `<@U9>` with U9 absent gives `@`,
and an unknown author gives the empty user. -/
theorem C3_lookup_miss_is_empty_witness :
    processRecord decimalSeconds emptyUsers
        ⟨"U9".toList, "12.5".toList, "message".toList, [], "<@U9>".toList, []⟩
      = .emit ⟨[], normalizeText emptyUsers "<@U9>".toList, 12⟩ ∧
    normalizeText emptyUsers (token "U9".toList) = ['@'] :=
  ⟨(C3_lookup_miss_is_empty decimalSeconds emptyUsers).1 _ 12 (by decide) (by decide) rfl,
    (C3_lookup_miss_is_empty decimalSeconds emptyUsers).2 "U9".toList
      (by decide) (by decide) (by decide) rfl⟩

/-- C4 as stated fails: with two `@` in the token the code keeps the label
from the first `@`, not from the last one: `<!subteam^S1|@a@b>` becomes
`@a@b`, while the suffix from the last `@` is `@b`. -/
theorem C4_counterexample :
    ('@' ∈ "^S1|@a@b".toList ∧ '<' ∉ "^S1|@a@b".toList ∧ '>' ∉ "^S1|@a@b".toList) ∧
    normalizeText emptyUsers ("<!subteam".toList ++ "^S1|@a@b".toList ++ ['>'])
      = "@a@b".toList ∧
    fromLastAt "^S1|@a@b".toList = "@b".toList ∧
    normalizeText emptyUsers ("<!subteam".toList ++ "^S1|@a@b".toList ++ ['>'])
      ≠ fromLastAt "^S1|@a@b".toList := by
  decide

/-- C4, amended: for every string P that contains at least one `@` and no `<`
or `>`, the text `<!subteam` + P + `>` is normalized to the suffix of P that
begins at the FIRST `@` in P (the wrapper, what precedes the first `@` and the
closing `>` are dropped). -/
theorem C4_subteam_keeps_from_first_at (users : UsersMap) (P : Str)
    (hat : '@' ∈ P) (hlt : '<' ∉ P) (hgt : '>' ∉ P) :
    normalizeText users ("<!subteam".toList ++ P ++ ['>']) = fromFirstAt P := by
  obtain ⟨a, b, hab, ha, hf⟩ := split_at_first_at P hat
  have hb : '>' ∉ b := fun h => hgt (by rw [hab]; simp [h])
  have hb2 : '<' ∉ '@' :: b := by
    intro h
    rcases List.mem_cons.mp h with h | h
    · exact absurd h (by decide)
    · exact hlt (by rw [hab]; simp [h])
  have e : "<!subteam".toList ++ P ++ ['>'] = '<' :: '!' :: ("subteam".toList ++ P ++ ['>']) := by
    simp
  have hm : rewriteMentions users ("<!subteam".toList ++ P ++ ['>'])
      = "<!subteam".toList ++ P ++ ['>'] := by
    rw [e]
    refine rewriteMentions_tag users '!' _ (by decide) ?_
    intro h
    have h2 : '<' ∈ "!subteam".toList ∨ '<' ∈ P ∨ '<' = '>' := by
      simpa [List.mem_append, or_assoc] using h
    rcases h2 with h2 | h2 | h2
    · exact absurd h2 (by decide)
    · exact hlt h2
    · exact absurd h2 (by decide)
  rw [normalizeText, hm, hf, hab, stripSubteams_single a b ha hb, rewriteChannels_no_lt _ hb2]

/-- C4 on the example of the specification: `<!subteam^S1|@here>` gives
`@here`. -/
theorem C4_subteam_keeps_from_first_at_witness :
    normalizeText emptyUsers ("<!subteam".toList ++ "^S1|@here".toList ++ ['>'])
      = fromFirstAt "^S1|@here".toList ∧ fromFirstAt "^S1|@here".toList = "@here".toList :=
  ⟨C4_subteam_keeps_from_first_at emptyUsers "^S1|@here".toList
    (by decide) (by decide) (by decide), by decide⟩

/-- C5: for every pair of strings X and Y that contain no `<`, `>`, `|` or
newline, the text `<#` + X + `|` + Y + `>` is normalized to `#` + Y. -/
theorem C5_channel_tag_rewritten (users : UsersMap) (X Y : Str)
    (hX : '<' ∉ X ∧ '>' ∉ X ∧ '|' ∉ X ∧ '\n' ∉ X)
    (hY : '<' ∉ Y ∧ '>' ∉ Y ∧ '|' ∉ Y ∧ '\n' ∉ Y) :
    normalizeText users ("<#".toList ++ X ++ '|' :: Y ++ ['>']) = '#' :: Y := by
  have e : "<#".toList ++ X ++ '|' :: Y ++ ['>'] = '<' :: '#' :: (X ++ '|' :: (Y ++ ['>'])) := by
    simp
  have ht : '<' ∉ '#' :: (X ++ '|' :: (Y ++ ['>'])) := by
    simp only [List.mem_cons, List.mem_append, List.not_mem_nil, or_false, not_or]
    exact ⟨by decide, hX.1, by decide, hY.1, by decide⟩
  rw [normalizeText, e, rewriteMentions_tag users '#' _ (by decide) ht,
    stripSubteams_tag '#' _ (by decide) ht, rewriteChannels_single X Y hX.2.2.2 hY.2.2.2 hY.2.2.1]

/-- C5 on the example of the specification: `<#C123|general>` gives
`#general`. -/
theorem C5_channel_tag_rewritten_witness :
    normalizeText emptyUsers ("<#".toList ++ "C123".toList ++ '|' :: "general".toList ++ ['>'])
      = '#' :: "general".toList :=
  C5_channel_tag_rewritten emptyUsers "C123".toList "general".toList (by decide) (by decide)

/-- C6: for every roster, the user table built from it maps each id that
occurs in the roster to the name resolved from the LAST entry carrying that id
(the display name when it is non-empty, the real name otherwise, hence the
empty string when both are empty), and maps no other id. -/
theorem C6_roster_table (roster : List InputUser) :
    (∀ pre e post, roster = pre ++ e :: post → (∀ x ∈ post, x.Id ≠ e.Id) →
      buildUsers roster e.Id
        = some ⟨e.Id, if e.Profile.DisplayName ≠ [] then e.Profile.DisplayName
            else e.Profile.RealName⟩) ∧
    (∀ id, (∀ x ∈ roster, x.Id ≠ id) → buildUsers roster id = none) := by
  constructor
  · intro pre e post hroster hpost
    rw [hroster, buildUsers, List.foldl_append, List.foldl_cons, rosterLoop_other post _ e.Id hpost]
    by_cases hd : e.Profile.DisplayName = [] <;> simp [UsersMap.set, hd]
  · intro id hid
    rw [buildUsers, rosterLoop_other roster _ id hid]
    rfl

/-- C6 on a roster where U1 occurs twice and U2 has two empty names: the later
entry of U1 wins, its empty display name falls back to the real name, U2 maps
to the empty name and U3 is not mapped. -/
theorem C6_roster_table_witness :
    buildUsers
        [⟨"U1".toList, [], ⟨"al".toList, "Alice".toList⟩⟩, ⟨"U2".toList, [], ⟨[], []⟩⟩,
          ⟨"U1".toList, [], ⟨[], "Alicia".toList⟩⟩] "U1".toList
      = some ⟨"U1".toList, "Alicia".toList⟩ ∧
    buildUsers
        [⟨"U1".toList, [], ⟨"al".toList, "Alice".toList⟩⟩, ⟨"U2".toList, [], ⟨[], []⟩⟩,
          ⟨"U1".toList, [], ⟨[], "Alicia".toList⟩⟩] "U2".toList
      = some ⟨"U2".toList, []⟩ ∧
    buildUsers
        [⟨"U1".toList, [], ⟨"al".toList, "Alice".toList⟩⟩, ⟨"U2".toList, [], ⟨[], []⟩⟩,
          ⟨"U1".toList, [], ⟨[], "Alicia".toList⟩⟩] "U3".toList
      = none :=
  ⟨(C6_roster_table _).1
      [⟨"U1".toList, [], ⟨"al".toList, "Alice".toList⟩⟩, ⟨"U2".toList, [], ⟨[], []⟩⟩]
      ⟨"U1".toList, [], ⟨[], "Alicia".toList⟩⟩ [] rfl (by decide),
    (C6_roster_table _).1 [⟨"U1".toList, [], ⟨"al".toList, "Alice".toList⟩⟩]
      ⟨"U2".toList, [], ⟨[], []⟩⟩ [⟨"U1".toList, [], ⟨[], "Alicia".toList⟩⟩] rfl (by decide),
    (C6_roster_table _).2 "U3".toList (by decide)⟩

/-- C7: for every channel given as an ordered sequence of daily files, each an
ordered list of records, in which every record that passes the exclusion
filter has a well-formed timestamp, the channel's list has exactly as many
messages as there are passing records, and its i-th message is the
normalization of the i-th passing record in file-then-record order. -/
theorem C7_one_message_per_passing_record (parseTs : Str → Option Int) (users : UsersMap)
    (days : List (List InputMessage))
    (hts : ∀ day ∈ days, ∀ r ∈ day, passes r → parseTs r.Timestamp ≠ none) :
    ∃ messages, readChannel parseTs users (some (days.map .decoded)) = .ok messages ∧
      messages.length = (days.flatten.filter fun r => decide (passes r)).length ∧
      List.Forall₂ (fun r m => processRecord parseTs users r = .emit m)
        (days.flatten.filter fun r => decide (passes r)) messages := by
  obtain ⟨out, h1, h2⟩ := readDays_ok parseTs users days [] hts
  exact ⟨out, by rw [readChannel]; simpa using h1, h2.length_eq.symm, h2⟩

/-- C7 on the end-to-end scenario of the specification: two daily files, each
with one record that passes and one `channel_join` record; the list has the
two messages in file order. -/
theorem C7_one_message_per_passing_record_witness :
    ∃ messages,
      readChannel decimalSeconds emptyUsers
        (some (List.map .decoded
          [[⟨[], "x".toList, "message".toList, "channel_join".toList, [], []⟩,
            ⟨[], "10".toList, "message".toList, [], "a".toList, []⟩],
           [⟨[], "20.5".toList, "message".toList, [], "b".toList, []⟩,
            ⟨[], "30".toList, "message".toList, "channel_join".toList, [], []⟩]])) = .ok messages ∧
      messages.length = (List.filter (fun r => decide (passes r)) (List.flatten
          [[⟨[], "x".toList, "message".toList, "channel_join".toList, [], []⟩,
            ⟨[], "10".toList, "message".toList, [], "a".toList, []⟩],
           [⟨[], "20.5".toList, "message".toList, [], "b".toList, []⟩,
            ⟨[], "30".toList, "message".toList, "channel_join".toList, [], []⟩]])).length ∧
      List.Forall₂ (fun r m => processRecord decimalSeconds emptyUsers r = .emit m)
        (List.filter (fun r => decide (passes r)) (List.flatten
          [[⟨[], "x".toList, "message".toList, "channel_join".toList, [], []⟩,
            ⟨[], "10".toList, "message".toList, [], "a".toList, []⟩],
           [⟨[], "20.5".toList, "message".toList, [], "b".toList, []⟩,
            ⟨[], "30".toList, "message".toList, "channel_join".toList, [], []⟩]])) messages :=
  C7_one_message_per_passing_record decimalSeconds emptyUsers _ (by decide)

/-- C8: for every list of normalized messages, the transcript text is the
concatenation, in list order, of one block per message: the month zero-padded
to 2 digits, `/`, the day unpadded, a space, the hour (0-23) zero-padded to 2
digits, `:`, the minute zero-padded to 2 digits, a space, the user, `: `, the
text, a newline, and one more newline; e.g. March 7, 15:05, user "Bob", text
"hello" gives `03/7 15:05 Bob: hello` followed by an empty line. -/
theorem C8_transcript_blocks (zone : Int → Int) (messages : List Message) :
    transcript zone messages = (messages.map (transcriptBlock zone)).flatten ∧
    (∀ t : Int, (Clock zone t).1 < 24 ∧ (Clock zone t).2 < 60) ∧
    ((Month (fun _ => 0) 1615129500, Day (fun _ => 0) 1615129500, Clock (fun _ => 0) 1615129500)
        = (3, 7, 15, 5) ∧
      transcript (fun _ => 0) [⟨"Bob".toList, "hello".toList, 1615129500⟩]
        = "03/7 15:05 Bob: hello\n\n".toList) := by
  refine ⟨?_, ?_, by decide⟩
  · rw [transcript, transcriptLoop]
    rfl
  · intro t
    simp only [Clock]
    omega

/-- C9 as stated fails: a record with a malformed timestamp that the
exclusion filter drops (here a `channel_join` record with timestamp `abc`) is
skipped before its timestamp is read, and the channel is read without error. -/
theorem C9_counterexample :
    decimalSeconds "abc".toList = none ∧
    readChannel decimalSeconds emptyUsers
        (some [.decoded [⟨[], "abc".toList, "message".toList, "channel_join".toList, [], []⟩]])
      = .ok [] :=
  ⟨by decide, rfl⟩

/-- C9, amended: for every channel whose daily files contain, anywhere, a
record that passes the exclusion filter and whose timestamp string the number
reader rejects, reading the channel fails with an error and yields no message
list. -/
theorem C9_bad_timestamp_of_passing_record_fails (parseTs : Str → Option Int)
    (users : UsersMap) (days : List (FileRead (List InputMessage)))
    (rs : List InputMessage) (r : InputMessage)
    (hday : .decoded rs ∈ days) (hr : r ∈ rs) (hp : passes r)
    (hts : parseTs r.Timestamp = none) :
    ∃ err, readChannel parseTs users (some days) = .error err :=
  readDays_fail parseTs users days rs r hday hr hp hts []

/-- C9, amended, on a channel of two files where the bad record comes last. -/
theorem C9_bad_timestamp_of_passing_record_fails_witness :
    ∃ err, readChannel decimalSeconds emptyUsers
      (some [.decoded [⟨[], "10".toList, "message".toList, [], "a".toList, []⟩],
        .decoded [⟨[], "20".toList, "message".toList, [], "b".toList, []⟩,
          ⟨[], "abc".toList, "message".toList, [], "c".toList, []⟩]]) = .error err :=
  C9_bad_timestamp_of_passing_record_fails decimalSeconds emptyUsers _
    [⟨[], "20".toList, "message".toList, [], "b".toList, []⟩,
      ⟨[], "abc".toList, "message".toList, [], "c".toList, []⟩]
    ⟨[], "abc".toList, "message".toList, [], "c".toList, []⟩
    (by decide) (by decide) (by decide) (by decide)

/-- C10: for every archive in which reading at least one channel fails
(unreadable file, malformed JSON or malformed timestamp), the run writes no
output file for any channel and ends on a fatal error: every channel is loaded
and normalized before the first output is written. -/
theorem C10_no_output_when_a_channel_fails (parseTs : Str → Option Int) (zone : Int → Int)
    (archive : Archive) (channels : List DirEntry) (c : DirEntry)
    (hentries : archive.entries = some channels) (hc : c ∈ channels) (hdir : c.IsDir = true)
    (hfail : ∀ users, archive.usersFile = .decoded users →
      ∃ err, readChannel parseTs (buildUsers users) c.days = .error err) :
    (main parseTs zone archive).written = [] ∧ (main parseTs zone archive).fatal ≠ none := by
  unfold main
  rw [hentries]
  cases hu : archive.usersFile with
  | unreadable => simp
  | malformed => simp
  | decoded users =>
    obtain ⟨err, he⟩ := loadChannels_fail parseTs (buildUsers users) channels c hc hdir
      (hfail users hu) []
    simp [he]

/-- C10 on single-channel archives: a malformed timestamp, an unreadable daily
file and a malformed daily file each give zero output files. -/
theorem C10_no_output_when_a_channel_fails_witness :
    ((main decimalSeconds (fun _ => 0)
        ⟨some [⟨"general".toList, true,
          some [.decoded [⟨[], "abc".toList, "message".toList, [], "hi".toList, []⟩]]⟩],
          .decoded []⟩).written = [] ∧
      (main decimalSeconds (fun _ => 0)
        ⟨some [⟨"general".toList, true,
          some [.decoded [⟨[], "abc".toList, "message".toList, [], "hi".toList, []⟩]]⟩],
          .decoded []⟩).fatal ≠ none) ∧
    (main decimalSeconds (fun _ => 0)
        ⟨some [⟨"general".toList, true, some [.unreadable]⟩], .decoded []⟩).written = [] ∧
    (main decimalSeconds (fun _ => 0)
        ⟨some [⟨"general".toList, true, some [.malformed]⟩], .decoded []⟩).written = [] :=
  ⟨C10_no_output_when_a_channel_fails decimalSeconds (fun _ => 0) _ _
      ⟨"general".toList, true,
        some [.decoded [⟨[], "abc".toList, "message".toList, [], "hi".toList, []⟩]]⟩
      rfl (by simp) rfl (fun users _ => ⟨.invalidTimestamp, by
        rw [readChannel, readDays, readRecords,
          processRecord_fail _ _ _ (by decide) (by decide)]⟩),
    (C10_no_output_when_a_channel_fails decimalSeconds (fun _ => 0) _ _
      ⟨"general".toList, true, some [.unreadable]⟩
      rfl (by simp) rfl (fun _ _ => ⟨.openFile, rfl⟩)).1,
    (C10_no_output_when_a_channel_fails decimalSeconds (fun _ => 0) _ _
      ⟨"general".toList, true, some [.malformed]⟩
      rfl (by simp) rfl (fun _ _ => ⟨.unmarshal, rfl⟩)).1⟩

/-- A run on a sound single-channel archive writes the two files of the
channel. -/
theorem main_writes_when_sound :
    main decimalSeconds (fun _ => 0)
        ⟨some [⟨"users.json".toList, false, none⟩,
          ⟨"general".toList, true,
            some [.decoded [⟨"U1".toList, "1615129500.000200".toList, "message".toList, [],
              "hello <@U1>".toList, []⟩]]⟩],
          .decoded [⟨"U1".toList, [], ⟨"Bob".toList, []⟩⟩]⟩
      = ⟨[.debug "general".toList [⟨"Bob".toList, "hello @Bob".toList, 1615129500⟩],
          .formatted "general".toList "03/7 15:05 Bob: hello @Bob\n\n".toList], none⟩ := by
  decide

/-- C16: plain text is preserved verbatim: for every message text that
contains no `<` and every user table, none of the three rewriting passes
changes the text, and a record with such a text that passes the filter and has
a well-formed timestamp yields a message whose text equals the input text. -/
theorem C16_plain_text_preserved (parseTs : Str → Option Int) (users : UsersMap)
    (r : InputMessage) (ts : Int)
    (hplain : '<' ∉ r.Text) (hpass : passes r) (hts : parseTs r.Timestamp = some ts) :
    processRecord parseTs users r = .emit ⟨(users.index r.UserId).Name, r.Text, ts⟩ ∧
    rewriteMentions users r.Text = r.Text ∧ stripSubteams r.Text = r.Text ∧
    rewriteChannels r.Text = r.Text := by
  refine ⟨?_, rewriteMentions_no_lt users _ hplain, stripSubteams_no_lt _ hplain,
    rewriteChannels_no_lt _ hplain⟩
  rw [processRecord_emit parseTs users r ts hpass hts, normalizeText_no_lt users _ hplain]

/-- C16 on a text with `>`, `@`, `#`, `|` and a newline but no `<`. -/
theorem C16_plain_text_preserved_witness :
    processRecord decimalSeconds emptyUsers
        ⟨"U1".toList, "7".toList, "message".toList, [], "a > b @c #d |e\nf".toList, []⟩
      = .emit ⟨[], "a > b @c #d |e\nf".toList, 7⟩ :=
  (C16_plain_text_preserved decimalSeconds emptyUsers
    ⟨"U1".toList, "7".toList, "message".toList, [], "a > b @c #d |e\nf".toList, []⟩ 7
    (by decide) (by decide) (by decide)).1

/-- C17: two channel tags on one line are collapsed into one: for all strings
A, a, M, B, b that contain no `<`, `>`, `|` or newline, the text
`<#` + A + `|` + a + `>` + M + `<#` + B + `|` + b + `>` is normalized to
`#` + b. -/
theorem C17_two_channel_tags_collapse (users : UsersMap) (A a M B b : Str)
    (hA : '<' ∉ A ∧ '>' ∉ A ∧ '|' ∉ A ∧ '\n' ∉ A)
    (ha : '<' ∉ a ∧ '>' ∉ a ∧ '|' ∉ a ∧ '\n' ∉ a)
    (hM : '<' ∉ M ∧ '>' ∉ M ∧ '|' ∉ M ∧ '\n' ∉ M)
    (hB : '<' ∉ B ∧ '>' ∉ B ∧ '|' ∉ B ∧ '\n' ∉ B)
    (hb : '<' ∉ b ∧ '>' ∉ b ∧ '|' ∉ b ∧ '\n' ∉ b) :
    normalizeText users
        ("<#".toList ++ A ++ '|' :: a ++ '>' :: M ++ "<#".toList ++ B ++ '|' :: b ++ ['>'])
      = '#' :: b := by
  have e1 : "<#".toList ++ A ++ '|' :: a ++ '>' :: M ++ "<#".toList ++ B ++ '|' :: b ++ ['>']
      = '<' :: '#' :: ((A ++ '|' :: a ++ '>' :: M) ++ '<' :: '#' :: (B ++ '|' :: b ++ ['>'])) := by
    simp
  have e2 : '<' :: '#' :: ((A ++ '|' :: a ++ '>' :: M) ++ '<' :: '#' :: (B ++ '|' :: b ++ ['>']))
      = '<' :: '#' :: ((A ++ '|' :: a ++ '>' :: M ++ '<' :: '#' :: B) ++ '|' :: (b ++ ['>'])) := by
    simp
  have hP : '<' ∉ A ++ '|' :: a ++ '>' :: M := by
    simp [hA.1, ha.1, hM.1]
  have hQ : '<' ∉ B ++ '|' :: b ++ ['>'] := by
    simp [hB.1, hb.1]
  have hX : '\n' ∉ A ++ '|' :: a ++ '>' :: M ++ '<' :: '#' :: B := by
    simp [hA.2.2.2, ha.2.2.2, hM.2.2.2, hB.2.2.2]
  rw [normalizeText, e1, rewriteMentions_two_tags users _ _ hP hQ,
    stripSubteams_two_tags _ _ hP hQ, e2,
    rewriteChannels_single _ b hX hb.2.2.2 hb.2.2.1]

/-- C17 on `<#C1|general> and <#C2|random>`: only `#random` is left. -/
theorem C17_two_channel_tags_collapse_witness :
    normalizeText emptyUsers
        ("<#".toList ++ "C1".toList ++ '|' :: "general".toList ++ '>' :: " and ".toList ++
          "<#".toList ++ "C2".toList ++ '|' :: "random".toList ++ ['>'])
      = '#' :: "random".toList :=
  C17_two_channel_tags_collapse emptyUsers "C1".toList "general".toList " and ".toList
    "C2".toList "random".toList (by decide) (by decide) (by decide) (by decide) (by decide)

/-- C15: the order of the passes is observable: on `<!subteam^S1|<@U1>>` with
{U1→Alice} the order of the code (mentions, then subteams) gives `@Alice`,
the opposite order gives `@U1>`; so there is a text and a table on which the
two orders differ. -/
theorem C15_pass_order_observable :
    normalizeText (buildUsers [⟨"U1".toList, [], ⟨"Alice".toList, []⟩⟩])
        "<!subteam^S1|<@U1>>".toList = "@Alice".toList ∧
    mentionsThenSubteams (buildUsers [⟨"U1".toList, [], ⟨"Alice".toList, []⟩⟩])
        "<!subteam^S1|<@U1>>".toList = "@Alice".toList ∧
    subteamsThenMentions (buildUsers [⟨"U1".toList, [], ⟨"Alice".toList, []⟩⟩])
        "<!subteam^S1|<@U1>>".toList = "@U1>".toList ∧
    ∃ (users : UsersMap) (text : Str),
      mentionsThenSubteams users text ≠ subteamsThenMentions users text := by
  refine ⟨by decide, by decide, by decide,
    buildUsers [⟨"U1".toList, [], ⟨"Alice".toList, []⟩⟩], "<!subteam^S1|<@U1>>".toList, ?_⟩
  decide

/-- C14 as stated fails: a `<` right before a mention token survives the
rewriting and opens a new token with what follows: with {U1→Al} the text
`<<@U1>X>`, in which the scan finds one token, is normalized to `<@AlX>`. -/
theorem C14_counterexample :
    (∀ k u, buildUsers [⟨"U1".toList, [], ⟨"Al".toList, []⟩⟩] k = some u →
      '<' ∉ u.Name ∧ '>' ∉ u.Name ∧ '@' ∉ u.Name) ∧
    (FindAllStringSubmatch mentionRe 999 "<<@U1>X>".toList).length < 999 ∧
    ('<' ∉ "AlX".toList ∧ '>' ∉ "AlX".toList ∧ '@' ∉ "AlX".toList) ∧
    normalizeText (buildUsers [⟨"U1".toList, [], ⟨"Al".toList, []⟩⟩]) "<<@U1>X>".toList
      = token "AlX".toList ∧
    token "AlX".toList
      <:+: normalizeText (buildUsers [⟨"U1".toList, [], ⟨"Al".toList, []⟩⟩]) "<<@U1>X>".toList := by
  have h : normalizeText (buildUsers [⟨"U1".toList, [], ⟨"Al".toList, []⟩⟩]) "<<@U1>X>".toList
      = token "AlX".toList := by decide
  refine ⟨?_, by decide, by decide, h, ?_⟩
  · intro k u hk
    simp only [buildUsers, List.foldl, UsersMap.set, emptyUsers] at hk
    split at hk
    · cases hk; decide
    · cases hk
  · rw [h]

/-- C14, amended: for every user table whose names contain no `<`, `>` or `@`,
and every message text built from fewer than 999 mention tokens interleaved
with segments that contain no `<` (every `<` of the text opens a mention
token), the normalized text contains no `<`, hence no substring of the shape
`<@ID>`. -/
theorem C14_mentions_fully_resolved (users : UsersMap) (seg0 : Str)
    (items : List (Str × Str))
    (hnames : ∀ k u, users k = some u → '<' ∉ u.Name ∧ '>' ∉ u.Name ∧ '@' ∉ u.Name)
    (hcount : items.length < 999)
    (hids : ∀ it ∈ items, '<' ∉ it.1 ∧ '>' ∉ it.1 ∧ '@' ∉ it.1)
    (hseg0 : '<' ∉ seg0)
    (hsegs : ∀ it ∈ items, '<' ∉ it.2) :
    '<' ∉ normalizeText users (mentionText seg0 items) ∧
    ∀ id : Str, ¬ token id <:+: normalizeText users (mentionText seg0 items) := by
  have hn : ∀ id, '<' ∉ (users.index id).Name :=
    index_name_no_lt users (fun k u h => (hnames k u h).1)
  have h := normalizeText_mentionText users seg0 items (Nat.le_of_lt hcount) hseg0
    (fun it hit => ⟨hids it hit, hsegs it hit, hn it.1⟩)
  have hno : '<' ∉ normalizeText users (mentionText seg0 items) := by
    rw [h]
    exact resolvedText_no_lt users seg0 items hseg0 (fun it hit => ⟨hsegs it hit, hn it.1⟩)
  refine ⟨hno, fun id hinf => hno ?_⟩
  exact hinf.subset (by simp [token])

/-- C14, amended, on `hi <@U1>, <@U9> and <@U1>` with {U1→Al}. -/
theorem C14_mentions_fully_resolved_witness :
    '<' ∉ normalizeText (buildUsers [⟨"U1".toList, [], ⟨"Al".toList, []⟩⟩])
        (mentionText "hi ".toList
          [("U1".toList, ", ".toList), ("U9".toList, " and ".toList), ("U1".toList, [])]) ∧
    ∀ id : Str, ¬ token id <:+:
      normalizeText (buildUsers [⟨"U1".toList, [], ⟨"Al".toList, []⟩⟩])
        (mentionText "hi ".toList
          [("U1".toList, ", ".toList), ("U9".toList, " and ".toList), ("U1".toList, [])]) :=
  C14_mentions_fully_resolved (buildUsers [⟨"U1".toList, [], ⟨"Al".toList, []⟩⟩]) "hi ".toList
    [("U1".toList, ", ".toList), ("U9".toList, " and ".toList), ("U1".toList, [])]
    (by
      intro k u hk
      simp only [buildUsers, List.foldl, UsersMap.set, emptyUsers] at hk
      split at hk
      · cases hk; decide
      · cases hk)
    (by decide) (by decide) (by decide) (by decide)

/-- C12 as stated fails: the subteam pattern does not require an `@`: the
text `<!subteam^S1>`, which holds no `@` and no `<#`, is matched with an empty
label and normalized to the empty text. -/
theorem C12_counterexample :
    '@' ∉ "<!subteam^S1>".toList ∧ ¬ "<#".toList <:+: "<!subteam^S1>".toList ∧
    normalizeText emptyUsers "<!subteam^S1>".toList = [] ∧
    normalizeText emptyUsers "<!subteam^S1>".toList ≠ "<!subteam^S1>".toList := by
  decide

/-- C12, amended: for every message text that contains no `@` character, no
`<#` and no `<!subteam`, the normalized text equals the input text; a fragment
`<!subteam` + Q + `>` without any `@` is a subteam token all the same: it is
matched with an empty label and removed. -/
theorem C12_text_without_tags_unchanged (users : UsersMap) :
    (∀ text : Str, '@' ∉ text → ¬ "<#".toList <:+: text → ¬ "<!subteam".toList <:+: text →
      normalizeText users text = text) ∧
    (∀ Q : Str, '@' ∉ Q → normalizeText users ("<!subteam".toList ++ Q ++ ['>']) = []) := by
  constructor
  · intro text hat hch hsub
    rw [normalizeText, rewriteMentions_no_at users text hat, stripSubteams_absent text hsub,
      rewriteChannels_absent text hch]
  · intro Q hQ
    have hat : '@' ∉ "<!subteam".toList ++ Q ++ ['>'] := by
      intro h
      have h2 : '@' ∈ "<!subteam".toList ∨ '@' ∈ Q ∨ '@' = '>' := by
        simpa [List.mem_append, or_assoc] using h
      rcases h2 with h2 | h2 | h2
      · exact absurd h2 (by decide)
      · exact hQ h2
      · exact absurd h2 (by decide)
    rw [normalizeText, rewriteMentions_no_at users _ hat, stripSubteams_no_at Q hQ,
      rewriteChannels_no_lt [] (by simp)]

/-- C12, amended, on `a < b <!here> c`, which is left as it is, and on
`<!subteam^S1>`, which is removed. -/
theorem C12_text_without_tags_unchanged_witness :
    normalizeText emptyUsers "a < b <!here> c".toList = "a < b <!here> c".toList ∧
    normalizeText emptyUsers ("<!subteam".toList ++ "^S1".toList ++ ['>']) = [] :=
  ⟨(C12_text_without_tags_unchanged emptyUsers).1 "a < b <!here> c".toList
      (by decide) (by decide) (by decide),
    (C12_text_without_tags_unchanged emptyUsers).2 "^S1".toList (by decide)⟩

/-- C11 as stated fails: a newline inside a message text is written as it
is, so the message takes more than two lines: one message with the text
`a`, newline, `b` gives three newline-terminated lines. -/
theorem C11_counterexample :
    splitLines (transcript (fun _ => 0) [⟨"Bob".toList, "a\nb".toList, 1615129500⟩])
      = (["03/7 15:05 Bob: a".toList, "b".toList, []], []) ∧
    (splitLines (transcript (fun _ => 0) [⟨"Bob".toList, "a\nb".toList, 1615129500⟩])).1.length
      ≠ 2 * [(⟨"Bob".toList, "a\nb".toList, 1615129500⟩ : Message)].length := by
  decide

/-- C11, amended: for every list of n normalized messages whose users and
texts contain no newline, the transcript consists of exactly 2·n
newline-terminated lines (the message line and a blank line per message, in
list order, nothing after the last newline), of which the even-numbered ones
are empty. -/
theorem C11_two_lines_per_message (zone : Int → Int) (messages : List Message)
    (hplain : ∀ m ∈ messages, '\n' ∉ m.User ∧ '\n' ∉ m.Text) :
    splitLines (transcript zone messages)
      = (messages.flatMap fun m => [transcriptLine zone m, []], []) ∧
    (splitLines (transcript zone messages)).1.length = 2 * messages.length ∧
    ∀ i, i < messages.length → (splitLines (transcript zone messages)).1[2 * i + 1]? = some [] := by
  have h : splitLines (transcript zone messages)
      = (messages.flatMap fun m => [transcriptLine zone m, []], []) := by
    rw [transcript, transcriptLoop, List.nil_append]
    exact splitLines_blocks zone messages hplain
  refine ⟨h, ?_, ?_⟩
  · rw [h]
    exact twoLines_length zone messages
  · intro i hi
    rw [h]
    exact blankLines zone messages i hi

/-- C11, amended, on two messages: four lines, the second and the fourth
empty. -/
theorem C11_two_lines_per_message_witness :
    splitLines (transcript (fun _ => 0)
        [⟨"Bob".toList, "hello".toList, 1615129500⟩, ⟨"Al".toList, "hi".toList, 1615129560⟩])
      = (["03/7 15:05 Bob: hello".toList, [], "03/7 15:06 Al: hi".toList, []], []) := by
  have h := (C11_two_lines_per_message (fun _ => 0)
    [⟨"Bob".toList, "hello".toList, 1615129500⟩, ⟨"Al".toList, "hi".toList, 1615129560⟩]
    (by decide)).1
  rw [h]
  decide

/-- C13 as stated fails: the timestamp goes through a float64, which keeps 53
binary digits: `1609459200.9999999` is read as 1609459201.0 and gives epoch
second 1609459201, and `9007199254740993` gives 9007199254740992. -/
theorem C13_counterexample :
    (plainNumeral "1609459200.9999999".toList = some ("1609459200".toList, "9999999".toList) ∧
      digitsValue "1609459200".toList = 1609459200 ∧
      processRecord (numeralSeconds fun _ => 0) emptyUsers
          ⟨[], "1609459200.9999999".toList, "message".toList, [], "hi".toList, []⟩
        = .emit ⟨[], "hi".toList, 1609459201⟩) ∧
    (plainNumeral "9007199254740993".toList = some ("9007199254740993".toList, []) ∧
      digitsValue "9007199254740993".toList = 9007199254740993 ∧
      processRecord (numeralSeconds fun _ => 0) emptyUsers
          ⟨[], "9007199254740993".toList, "message".toList, [], "hi".toList, []⟩
        = .emit ⟨[], "hi".toList, 9007199254740992⟩) := by
  decide

/-- C13, amended: for every timestamp string that is a non-negative decimal
numeral with an optional fractional part (one or more digits, optionally
followed by `.` and digits) and whose digits, read as one integer without the
point, stay below 2^53, the message's time is the instant whose epoch second
equals the numeral's integer part, the fractional part being truncated toward
zero. -/
theorem C13_epoch_second_is_integer_part (big : Nat → Int) (parseTs : Str → Option Int)
    (users : UsersMap) (r : InputMessage) (whole frac : Str)
    (hparse : readsNumerals big parseTs) (hpass : passes r)
    (hnum : plainNumeral r.Timestamp = some (whole, frac))
    (hsmall : digitsValue (whole ++ frac) < 2 ^ 53) :
    processRecord parseTs users r
      = .emit ⟨(users.index r.UserId).Name, normalizeText users r.Text,
          (digitsValue whole : Int)⟩ := by
  have h := hparse r.Timestamp whole frac hnum
  rw [float64Seconds_exact big _ _ (Nat.pow_pos (by decide)) hsmall,
    numeral_integer_part r.Timestamp whole frac hnum] at h
  exact processRecord_emit parseTs users r _ hpass h

/-- C13 on the example of the specification: `1609459200.000100` gives epoch
second 1609459200. -/
theorem C13_epoch_second_is_integer_part_witness :
    processRecord (numeralSeconds fun _ => 0) emptyUsers
        ⟨[], "1609459200.000100".toList, "message".toList, [], "hi".toList, []⟩
      = .emit ⟨[], normalizeText emptyUsers "hi".toList,
          (digitsValue "1609459200".toList : Int)⟩ ∧
    digitsValue "1609459200".toList = 1609459200 :=
  ⟨C13_epoch_second_is_integer_part (fun _ => 0) (numeralSeconds fun _ => 0) emptyUsers
      ⟨[], "1609459200.000100".toList, "message".toList, [], "hi".toList, []⟩
      "1609459200".toList "000100".toList (numeralSeconds_reads _) (by decide) (by decide)
      (by decide),
    by decide⟩

end Slacky
